import Mathlib

/-!
# Verification of the Openclaw LLM ingestion and repair pipeline

Shallow embedding of the pipeline code that the specification describes:

* `extractJSON` (the four-strategy response extractor installed by
  `scripts/fix_extract.py`),
* the streaming delta decoder (installed by `scripts/fix_streaming.py`),
* the dependency reconcilers (`autoDetectAndInstallMissingPackages` from
  `patch-daemon.py` and `scan_imports`/`fix_project` from
  `scripts/fix-existing-projects.py`),
* the export contract fixer (`fixImportExportMismatches` from `patch-daemon.py`),
* the missing-module extraction of `verifyBuildLocally` (`patch-daemon.py`).

Text is modelled as `List Char` (JavaScript strings are UTF-16; all inputs of
interest here are plain text, and indices coincide).  `JSON.parse` and
`JSON.stringify` are library functions of the host runtime; they are modelled
below by an executable strict JSON parser (`jparse`) and renderer (`jrender`).
Numbers are kept as their source lexeme, so no floating point is involved;
the only number-sensitive operation in the embedded code is JavaScript
truthiness of a `path` field, modelled by "the mantissa digits are not all
zero" (float underflow of astronomically small exponents is not modelled).
-/

namespace Openclaw

/-! ## Character classes and basic text utilities -/

/-- JSON insignificant whitespace, as accepted by `JSON.parse`
(space, tab, line feed, carriage return only). -/
def jsonWs (c : Char) : Bool :=
  c = ' ' || c = '\t' || c = '\n' || c = '\r'

/-- The JavaScript `\s` character class (also the set trimmed by
`String.prototype.trim`): ASCII whitespace, NBSP, the Unicode space
separators, line/paragraph separators and the BOM. -/
def jsWs (c : Char) : Bool :=
  c = ' ' || c = '\t' || c = '\n' || c = '\r' ||
  c = Char.ofNat 0x0b || c = Char.ofNat 0x0c || c = Char.ofNat 0xa0 ||
  c = Char.ofNat 0x1680 ||
  (Char.ofNat 0x2000 ≤ c && c ≤ Char.ofNat 0x200a) ||
  c = Char.ofNat 0x2028 || c = Char.ofNat 0x2029 ||
  c = Char.ofNat 0x202f || c = Char.ofNat 0x205f ||
  c = Char.ofNat 0x3000 || c = Char.ofNat 0xfeff

/-- `String.prototype.trim`: drop `jsWs` characters from both ends. -/
def jsTrim (l : List Char) : List Char :=
  ((l.dropWhile jsWs).reverse.dropWhile jsWs).reverse

/-- Does `pat` occur as a prefix of `l`? -/
def isPre : List Char → List Char → Bool
  | [], _ => true
  | _ :: _, [] => false
  | p :: ps, c :: cs => p = c && isPre ps cs

/-- Index (relative to the start of `l`) of the first occurrence of
`pat` as a contiguous sublist (a plain substring search), `none` if absent. -/
def findSub (pat : List Char) : List Char → Option Nat
  | [] => if pat.isEmpty then some 0 else none
  | c :: cs =>
      if isPre pat (c :: cs) then some 0
      else (findSub pat cs).map (· + 1)

/-- First index `i` (absolute; the scan starts at absolute index `start`)
with `l.get i = ch`. -/
def scanIdx (ch : Char) : List Char → Nat → Option Nat
  | [], _ => none
  | c :: cs, i => if c = ch then some i else scanIdx ch cs (i + 1)

/-- `text.indexOf(ch, from0)`, as an `Option`. -/
def idxFrom (t : List Char) (ch : Char) (from0 : Nat) : Option Nat :=
  scanIdx ch (t.drop from0) from0

/-- `text.substring(a, b)`: the characters at indices `a ≤ i < b`. -/
def subSlice (l : List Char) (a b : Nat) : List Char :=
  (l.drop a).take (b - a)

/-! ## The JSON data model

`Json.num` keeps the numeric lexeme verbatim (sign, digits, fraction,
exponent) instead of converting to a float: none of the embedded code does
arithmetic on parsed numbers. -/

inductive Json where
  | null : Json
  | bool : Bool → Json
  | num : String → Json
  | str : String → Json
  | arr : List Json → Json
  | obj : List (String × Json) → Json
deriving Inhabited

/-- JavaScript property lookup on a parsed JSON object: with duplicate keys
the later member wins (`JSON.parse` assigns in source order). -/
def jfield (ms : List (String × Json)) (k : String) : Option Json :=
  match ms with
  | [] => none
  | (k0, v0) :: rest =>
      match jfield rest k with
      | some v => some v
      | none => if k0 = k then some v0 else none

/-- Are the mantissa digits of a number lexeme all zero?  (Such lexemes are
the JSON sources of the float `0`/`-0`, which is falsy.) -/
def numLexZero (lx : List Char) : Bool :=
  let noSign := match lx with
    | '-' :: r => r
    | r => r
  let mant := noSign.takeWhile (fun c => c ≠ 'e' && c ≠ 'E')
  mant.all (fun c => c = '0' || c = '.')

/-- JavaScript truthiness of a parsed JSON value.  Objects and arrays are
always truthy; `""`, `0` and literals `null`/`false` are falsy. -/
def jtruthy : Json → Bool
  | .null => false
  | .bool b => b
  | .num lx => !numLexZero lx.toList
  | .str s => s ≠ ""
  | .arr _ => true
  | .obj _ => true

/-! ## `JSON.parse` model

A strict recursive-descent parser over `List Char` with a fuel counter for
totality (`jparse` supplies `length + 1`, always sufficient).  It follows the
ECMA-404 grammar that `JSON.parse` enforces: strings reject raw control
characters and unknown escapes, numbers forbid leading zeros, arrays and
objects forbid trailing commas, and trailing garbage after the document
fails the whole parse. -/

/-- Hexadecimal digit value, for `\u` escapes. -/
def hexv (c : Char) : Option Nat :=
  let n := c.toNat
  if 48 ≤ n && n ≤ 57 then some (n - 48)
  else if 97 ≤ n && n ≤ 102 then some (n - 87)
  else if 65 ≤ n && n ≤ 70 then some (n - 55)
  else none

def isDig (c : Char) : Bool := '0' ≤ c && c ≤ '9'

/-- One escape sequence after a backslash: the decoded character and the
remainder, or `none` for an invalid escape. -/
def jpEsc (l : List Char) : Option (Char × List Char) :=
  match l with
  | [] => none
  | e :: r2 =>
      if e = 'u' then
        match r2 with
        | h1 :: h2 :: h3 :: h4 :: r3 =>
            match hexv h1, hexv h2, hexv h3, hexv h4 with
            | some a, some b, some cc, some d =>
                some (Char.ofNat (((a * 16 + b) * 16 + cc) * 16 + d), r3)
            | _, _, _, _ => none
        | _ => none
      else if e = '"' then some ('"', r2)
      else if e = '\\' then some ('\\', r2)
      else if e = '/' then some ('/', r2)
      else if e = 'b' then some (Char.ofNat 8, r2)
      else if e = 'f' then some (Char.ofNat 12, r2)
      else if e = 'n' then some ('\n', r2)
      else if e = 'r' then some ('\r', r2)
      else if e = 't' then some ('\t', r2)
      else none

/-- Body of a JSON string after the opening quote.  Raw characters below
U+0020 are rejected, as `JSON.parse` does.  Structural on a fuel counter;
each step appends one decoded character, so the callers' fuel
`length + 1` is never exhausted. -/
def jpStrBody : Nat → List Char → List Char → Option (String × List Char)
  | 0, _, _ => none
  | fuel + 1, acc, l =>
      match l with
      | [] => none
      | c :: rest =>
          if c = '"' then some (String.mk acc.reverse, rest)
          else if c = '\\' then
            match jpEsc rest with
            | some (ch, r3) => jpStrBody fuel (ch :: acc) r3
            | none => none
          else if c.toNat < 0x20 then none
          else jpStrBody fuel (c :: acc) rest

/-- JSON number lexeme: `-? (0 | [1-9][0-9]*) (\.[0-9]+)? ([eE][+-]?[0-9]+)?`.
Returns the lexeme characters and the remainder. -/
def jpNumLex (l : List Char) : Option (List Char × List Char) :=
  let (sign, l1) := match l with
    | '-' :: r => (['-'], r)
    | r => (([] : List Char), r)
  match l1 with
  | [] => none
  | c :: r =>
      if !isDig c then none
      else
        let (intPart, l2) :=
          if c = '0' then ([c], r)
          else (c :: r.takeWhile isDig, r.dropWhile isDig)
        let (fracPart, l3) :=
          match l2 with
          | '.' :: f :: fr =>
              if isDig f then
                ('.' :: f :: fr.takeWhile isDig, fr.dropWhile isDig)
              else ([], l2)
          | _ => ([], l2)
        let (expPart, l4) :=
          match l3 with
          | e :: er =>
              if e = 'e' || e = 'E' then
                let (es, er2) := match er with
                  | '+' :: t => (['+'], t)
                  | '-' :: t => (['-'], t)
                  | t => (([] : List Char), t)
                match er2 with
                | d :: dr =>
                    if isDig d then (e :: (es ++ d :: dr.takeWhile isDig), dr.dropWhile isDig)
                    else ([], l3)
                | [] => ([], l3)
              else ([], l3)
          | [] => ([], l3)
        if fracPart = [] && (match l2 with | '.' :: _ => true | _ => false) then none
        else some (sign ++ intPart ++ fracPart ++ expPart, l4)

mutual

/-- One JSON value (leading whitespace allowed), returning the remainder. -/
def jpVal (fuel : Nat) (l : List Char) : Option (Json × List Char) :=
  match fuel with
  | 0 => none
  | fuel + 1 =>
      match l.dropWhile jsonWs with
      | [] => none
      | c :: r =>
          if c = '"' then
            match jpStrBody (r.length + 1) [] r with
            | some (s, r2) => some (.str s, r2)
            | none => none
          else if c = '[' then
            let rr := r.dropWhile jsonWs
            if rr.head? = some ']' then some (.arr [], rr.tail)
            else
              match jpItems fuel r with
              | some (es, r2) => some (.arr es, r2)
              | none => none
          else if c = '{' then
            let rr := r.dropWhile jsonWs
            if rr.head? = some '}' then some (.obj [], rr.tail)
            else
              match jpPairs fuel r with
              | some (ms, r2) => some (.obj ms, r2)
              | none => none
          else if c = 'n' then
            if r.take 3 = ['u', 'l', 'l'] then some (.null, r.drop 3) else none
          else if c = 't' then
            if r.take 3 = ['r', 'u', 'e'] then some (.bool true, r.drop 3) else none
          else if c = 'f' then
            if r.take 4 = ['a', 'l', 's', 'e'] then some (.bool false, r.drop 4) else none
          else if c = '-' || isDig c then
            match jpNumLex (c :: r) with
            | some (lx, r2) => some (.num (String.mk lx), r2)
            | none => none
          else none

/-- One-or-more comma-separated array items followed by `]`. -/
def jpItems (fuel : Nat) (l : List Char) : Option (List Json × List Char) :=
  match fuel with
  | 0 => none
  | fuel + 1 =>
      match jpVal fuel l with
      | none => none
      | some (v, r) =>
          let rr := r.dropWhile jsonWs
          if rr.head? = some ',' then
            match jpItems fuel rr.tail with
            | some (vs, r3) => some (v :: vs, r3)
            | none => none
          else if rr.head? = some ']' then some ([v], rr.tail)
          else none

/-- One-or-more comma-separated object members followed by `}`. -/
def jpPairs (fuel : Nat) (l : List Char) : Option (List (String × Json) × List Char) :=
  match fuel with
  | 0 => none
  | fuel + 1 =>
      match l.dropWhile jsonWs with
      | [] => none
      | c :: r =>
          if c = '"' then
            match jpStrBody (r.length + 1) [] r with
            | none => none
            | some (k, r1) =>
                let rr := r1.dropWhile jsonWs
                if rr.head? = some ':' then
                  match jpVal fuel rr.tail with
                  | none => none
                  | some (v, r3) =>
                      let rr3 := r3.dropWhile jsonWs
                      if rr3.head? = some ',' then
                        match jpPairs fuel rr3.tail with
                        | some (ms, r5) => some ((k, v) :: ms, r5)
                        | none => none
                      else if rr3.head? = some '}' then some ([(k, v)], rr3.tail)
                      else none
                else none
          else none

end

/-- `JSON.parse` on a character list: one document, then only whitespace. -/
def jparseL (l : List Char) : Option Json :=
  match jpVal (l.length + 1) l with
  | none => none
  | some (v, r) => if r.dropWhile jsonWs = [] then some v else none

/-- `JSON.parse` on a string. -/
def jparse (s : String) : Option Json := jparseL s.toList

/-! ## `JSON.stringify` model -/

/-- One character of a string body, escaped as `JSON.stringify` emits it:
`"` and `\` get a backslash, the five short control escapes are used where
they exist, other control characters become lower-case `\u00xx`, and
everything else is emitted verbatim. -/
def jescC (c : Char) : List Char :=
  if c = '"' then ['\\', '"']
  else if c = '\\' then ['\\', '\\']
  else if c = '\n' then ['\\', 'n']
  else if c = '\r' then ['\\', 'r']
  else if c = '\t' then ['\\', 't']
  else if c = Char.ofNat 8 then ['\\', 'b']
  else if c = Char.ofNat 12 then ['\\', 'f']
  else if c.toNat < 0x20 then
    let lo := fun (n : Nat) => if n < 10 then Char.ofNat ('0'.toNat + n)
      else Char.ofNat ('a'.toNat + n - 10)
    ['\\', 'u', '0', '0', lo (c.toNat / 16), lo (c.toNat % 16)]
  else [c]

/-- A rendered JSON string, quotes included. -/
def jqStr (s : String) : List Char :=
  '"' :: (s.toList.flatMap jescC ++ ['"'])

mutual

/-- `JSON.stringify` (compact form: no inserted whitespace). -/
def jrender : Json → List Char
  | .null => "null".toList
  | .bool true => "true".toList
  | .bool false => "false".toList
  | .num lx => lx.toList
  | .str s => jqStr s
  | .arr es => '[' :: (jrItems es ++ [']'])
  | .obj ms => '{' :: (jrPairs ms ++ ['}'])

def jrItems : List Json → List Char
  | [] => []
  | [e] => jrender e
  | e :: es => jrender e ++ ',' :: jrItems es

def jrPairs : List (String × Json) → List Char
  | [] => []
  | [(k, v)] => jqStr k ++ ':' :: jrender v
  | (k, v) :: ms => jqStr k ++ ':' :: jrender v ++ ',' :: jrPairs ms

end

/-! ## The trailing-comma repair pass

`extractJSON` cleans every candidate with
`.replace(/,\s*}/g, "}").replace(/,\s*]/g, "]")` before parsing. -/

theorem length_dropWhile_le (p : Char → Bool) (l : List Char) :
    (l.dropWhile p).length ≤ l.length := by
  induction l with
  | nil => simp [List.dropWhile]
  | cons c cs ih => by_cases h : p c <;> simp [List.dropWhile, h] <;> omega

/-- One global pass of `text.replace(/,\s*C/g, "C")` for a closing character
`close`: at each comma whose next non-`\s` character is `close`, the comma
and the whitespace run are deleted and scanning resumes after the match;
otherwise the scan advances one character, exactly as the JavaScript regex
engine does (a new match can never begin inside a whitespace run).  The
recursion is structural on a fuel counter; every step consumes at least one
input character, so the callers' fuel `length + 1` is never exhausted (a
drained fuel would return the remaining characters unprocessed). -/
def commaFix (close : Char) : Nat → List Char → List Char
  | _, [] => []
  | 0, l => l
  | fuel + 1, c :: cs =>
      if c = ',' then
        match cs.dropWhile jsWs with
        | d :: r3 =>
            if d = close then close :: commaFix close fuel r3
            else c :: commaFix close fuel cs
        | [] => c :: commaFix close fuel cs
      else c :: commaFix close fuel cs

/-- The repair pass: remove trailing commas before `}`, then before `]`. -/
def repair (l : List Char) : List Char :=
  commaFix ']' (l.length + 1) (commaFix '}' (l.length + 1) l)

/-! ## The response extractor (`extractJSON`, strategies 1-4) -/

/-- A file record recovered by the extractor. -/
structure FileRec where
  path : String
  content : String
deriving Repr, DecidableEq, Inhabited

/-- The JSON value of a file record, keys in the order the code emits them. -/
def fileJson (f : FileRec) : Json :=
  .obj [("path", .str f.path), ("content", .str f.content)]

/-- Strategy 1: if the trimmed text starts with `[`, repair and parse it
directly.  (A strict JSON document starting with `[` can only parse as an
array, so returning the parsed value types as an array; a parse failure is
caught and falls through to the next strategy.) -/
def strat1 (t : List Char) : Option (List Json) :=
  let tr := jsTrim t
  if tr.head? = some '[' then
    match jparseL (repair tr) with
    | some (.arr es) => some es
    | _ => none
  else none

/-- All capture groups of the fenced-block pattern
`/TAG\s*([\s\S]*?)```/g`: find the opening tag, capture lazily up to the
next closing fence, resume scanning after that fence.  (The greedy `\s*`
only shifts whitespace out of the capture, which the caller trims anyway.)
The fuel starts at `length + 1`, which bounds the number of matches. -/
def fenceScan (opTag : List Char) : Nat → List Char → List (List Char)
  | 0, _ => []
  | fuel + 1, l =>
      match findSub opTag l with
      | none => []
      | some i =>
          let afterOpen := l.drop (i + opTag.length)
          match findSub ['`', '`', '`'] afterOpen with
          | none => []
          | some j => afterOpen.take j :: fenceScan opTag fuel (afterOpen.drop (j + 3))

/-- Try one fenced block: trim, require a leading `[`, repair and parse. -/
def tryBlock (b : List Char) : Option (List Json) :=
  let blk := jsTrim b
  if blk.head? = some '[' then
    match jparseL (repair blk) with
    | some (.arr es) => some es
    | _ => none
  else none

/-- Strategy 2: the ```` ```json ```` pattern first, then the generic
```` ``` ```` pattern; the first block that parses wins. -/
def strat2 (t : List Char) : Option (List Json) :=
  let blocks :=
    fenceScan ('`' :: '`' :: '`' :: 'j' :: 's' :: 'o' :: 'n' :: []) (t.length + 1) t ++
    fenceScan ['`', '`', '`'] (t.length + 1) t
  blocks.findSome? tryBlock

/-- The look-ahead of strategy 3:
`text.substring(arrayStart + 1, arrayStart + 50).trim().startsWith("{")`. -/
def braceAhead (t : List Char) (s : Nat) : Bool :=
  (jsTrim (subSlice t (s + 1) (s + 50))).head? = some '{'

/-- The string-aware bracket-depth scan of strategy 3.  `i` is the absolute
index of the current character, `d` the depth, and the budget `b` counts the
characters the loop may still examine (`i < arrayStart + 200000`).  Returns
the index where the depth returns to zero at a `]`. -/
def depthScan : List Char → Nat → Int → Bool → Bool → Nat → Option Nat
  | [], _, _, _, _, _ => none
  | _ :: _, _, _, _, _, 0 => none
  | c :: cs, i, d, inStr, esc, b + 1 =>
      if esc then depthScan cs (i + 1) d inStr false b
      else if c = '\\' then depthScan cs (i + 1) d inStr true b
      else if c = '"' then depthScan cs (i + 1) d (!inStr) false b
      else if inStr then depthScan cs (i + 1) d inStr false b
      else if c = '[' then depthScan cs (i + 1) (d + 1) inStr false b
      else if c = ']' then
        if d - 1 = 0 then some i else depthScan cs (i + 1) (d - 1) inStr false b
      else depthScan cs (i + 1) d inStr false b

/-- The matching `]` for the candidate opening at index `s`, scanning at
most 200000 characters starting from `s`. -/
def arrClose (t : List Char) (s : Nat) : Option Nat :=
  depthScan (t.drop s) s 0 false false 200000

/-- Member access `parsed[0].path` as a truthiness test.  A `null` first
element throws a `TypeError`, which the surrounding `catch` turns into the
same outcome as a falsy `path` (the candidate is skipped), so both are
`false` here; non-object values yield `undefined`, also falsy. -/
def pathTruthy : Json → Bool
  | .obj ms =>
      match jfield ms "path" with
      | some v => jtruthy v
      | none => false
  | _ => false

/-- Repair and parse one closed candidate span and apply the validity test
`Array.isArray(parsed) && parsed.length > 0 && parsed[0].path`. -/
def candParse (t : List Char) (s e : Nat) : Option (List Json) :=
  match jparseL (repair (subSlice t s (e + 1))) with
  | some (.arr (x :: xs)) => if pathTruthy x then some (x :: xs) else none
  | _ => none

/-- A successful `scanIdx` result lies in the scanned window. -/
theorem scanIdx_bounds (ch : Char) :
    ∀ (l : List Char) (i r : Nat), scanIdx ch l i = some r → i ≤ r ∧ r < i + l.length := by
  intro l
  induction l with
  | nil => intro i r h; simp [scanIdx] at h
  | cons c cs ih =>
      intro i r h
      rw [scanIdx] at h
      by_cases hc : c = ch
      · rw [if_pos hc, Option.some.injEq] at h
        simp only [List.length_cons]
        omega
      · rw [if_neg hc] at h
        have := ih (i + 1) r h
        simp only [List.length_cons]
        omega

/-- The scan loop of strategy 3: visit each `[` from `pos` on, and keep a
candidate only when it is strictly longer than the best so far (so the
first longest candidate wins).  Structural on a fuel counter; each
iteration advances `pos` past the `[` it found, so the caller's fuel
`t.length + 1` is never exhausted. -/
def strat3Loop (t : List Char) : Nat → Nat → List Json → List Json
  | 0, _, best => best
  | fuel + 1, pos, best =>
      match idxFrom t '[' pos with
      | none => best
      | some s =>
          let best2 :=
            if braceAhead t s then
              match arrClose t s with
              | some e =>
                  if s < e then
                    match candParse t s e with
                    | some parsed => if parsed.length > best.length then parsed else best
                    | none => best
                  else best
              | none => best
            else best
          strat3Loop t fuel (s + 1) best2

/-- Strategy 3 in full: the loop from position 0 with an empty best. -/
def strat3 (t : List Char) : List Json :=
  strat3Loop t (t.length + 1) 0 []

/-- The candidate (if any) that strategy 3 extracts at index `s`: an `[`
there, the brace look-ahead, a closed span within budget, and a valid
parse. -/
def candAt (t : List Char) (s : Nat) : Option (List Json) :=
  if (t.drop s).head? = some '[' then
    if braceAhead t s then
      match arrClose t s with
      | some e => if s < e then candParse t s e else none
      | none => none
    else none
  else none

/-- All valid candidates of strategy 3, in order of their opening bracket. -/
def strat3Cands (t : List Char) : List (List Json) :=
  (List.range t.length).filterMap (candAt t)

/-- Modelled from the spec: "the longest array wins (most file records);
ties broken by first occurrence in the text" — the first element whose
length no later element exceeds. -/
def firstMaxLen : List (List Json) → List Json
  | [] => []
  | c :: cs =>
      let r := firstMaxLen cs
      if r.length > c.length then r else c

/-- Whitespace split: length of the leading `\s` run, and the rest. -/
def wsSplit (l : List Char) : Nat × List Char :=
  ((l.takeWhile jsWs).length, l.dropWhile jsWs)

/-- Consume a literal, or fail. -/
def litAt (pat l : List Char) : Option (List Char) :=
  if isPre pat l then some (l.drop pat.length) else none

/-- Strategy 4 head pattern
`/\{\s*"path"\s*:\s*"([^"]+)"\s*,\s*"content"\s*:\s*"/` anchored at the
start of `l`: returns the raw path capture (at least one non-quote
character) and the length of the whole match (the code resumes its global
scan right after the opening quote of the content string). -/
def fileMatchAt (l : List Char) : Option (List Char × Nat) :=
  match l with
  | '{' :: r0 =>
      let (_, r1) := wsSplit r0
      match litAt ['"', 'p', 'a', 't', 'h', '"'] r1 with
      | none => none
      | some r2 =>
          let (_, r3) := wsSplit r2
          match r3 with
          | ':' :: r4 =>
              let (_, r5) := wsSplit r4
              match r5 with
              | '"' :: r6 =>
                  let cap := r6.takeWhile (· ≠ '"')
                  if cap.isEmpty then none
                  else
                    match r6.drop cap.length with
                    | '"' :: r7 =>
                        let (_, r8) := wsSplit r7
                        match r8 with
                        | ',' :: r9 =>
                            let (_, r10) := wsSplit r9
                            match litAt ['"', 'c', 'o', 'n', 't', 'e', 'n', 't', '"'] r10 with
                            | none => none
                            | some r11 =>
                                let (_, r12) := wsSplit r11
                                match r12 with
                                | ':' :: r13 =>
                                    let (_, r14) := wsSplit r13
                                    match r14 with
                                    | '"' :: r15 => some (cap, l.length - r15.length)
                                    | _ => none
                                | _ => none
                        | _ => none
                    | _ => none
              | _ => none
          | _ => none
  | _ => none

/-- The global scan of the strategy-4 head pattern: on a match, record the
path capture and the absolute index right after the opening content quote,
then resume there; otherwise advance one character.  Fuel `length + 1`
bounds the iterations. -/
def fileMatches : Nat → List Char → Nat → List (List Char × Nat)
  | 0, _, _ => []
  | fuel + 1, l, i =>
      match fileMatchAt l with
      | some (cap, mlen) => (cap, i + mlen) :: fileMatches fuel (l.drop mlen) (i + mlen)
      | none =>
          match l with
          | [] => []
          | _ :: cs => fileMatches fuel cs (i + 1)

/-- The escape-aware search for the end of a content string (strategy 4):
from the content start, at most 100000 characters; a quote ends the string
only when the next nine characters, trimmed, start with `}`. -/
def contentScan : List Char → Nat → Bool → Nat → Option Nat
  | [], _, _, _ => none
  | _ :: _, _, _, 0 => none
  | c :: cs, i, esc, b + 1 =>
      if esc then contentScan cs (i + 1) false b
      else if c = '\\' then contentScan cs (i + 1) true b
      else if c = '"' then
        if ((cs.take 9).dropWhile jsWs).head? = some '}' then some i
        else contentScan cs (i + 1) false b
      else contentScan cs (i + 1) false b

/-- Strategy 4: for each head match, bound the content string, unescape it
via `JSON.parse('"' + raw + '"')`, and emit a file record; files whose
content cannot be bounded (or fails to unescape) are dropped. -/
def strat4 (t : List Char) : List Json :=
  (fileMatches (t.length + 1) t 0).filterMap fun pc =>
    match contentScan (t.drop pc.2) pc.2 false 100000 with
    | some ce =>
        if pc.2 < ce then
          match jparseL ('"' :: (subSlice t pc.2 ce ++ ['"'])) with
          | some (.str s) => some (fileJson ⟨String.mk pc.1, s⟩)
          | _ => none
        else none
    | none => none

/-! ## Round-trip lemmas: parsing rendered JSON

Only the shapes the claims need are covered: rendered strings, flat
two-member objects with string values (file records and delta events), and
arrays of file objects. -/

theorem mk_toList (s : String) : String.mk s.toList = s := by
  cases s; rfl

theorem dropWhile_cons_of_neg {p : Char → Bool} {c : Char} {l : List Char}
    (h : p c = false) : (c :: l).dropWhile p = c :: l := by
  simp [List.dropWhile, h]

theorem jqStr_cons (s : String) (x : List Char) :
    jqStr s ++ x = '"' :: (s.toList.flatMap jescC ++ ('"' :: x)) := by
  simp [jqStr]

theorem hexv_lowNibble :
    ∀ n, n < 16 → hexv (if n < 10 then Char.ofNat ('0'.toNat + n)
      else Char.ofNat ('a'.toNat + n - 10)) = some n := by
  decide

/-- Decoding a `\u00xx` escape sequence. -/
theorem jpEsc_u (x y : Char) (a b : Nat) (rest : List Char)
    (ha : hexv x = some a) (hb : hexv y = some b) :
    jpEsc ('u' :: '0' :: '0' :: x :: y :: rest) = some (Char.ofNat (a * 16 + b), rest) := by
  rw [jpEsc]
  simp [ha, hb, show hexv '0' = some 0 from rfl]

/-- Parsing one escaped character undoes the escape. -/
theorem jpStrBody_escC (f : Nat) (c : Char) (acc rest : List Char) :
    jpStrBody (f + 1) acc (jescC c ++ rest) = jpStrBody f (c :: acc) rest := by
  unfold jescC
  split_ifs with h1 h2 h3 h4 h5 h6 h7 h8
  · subst h1; simp only [List.cons_append, List.nil_append]; rw [jpStrBody]; rfl
  · subst h2; simp only [List.cons_append, List.nil_append]; rw [jpStrBody]; rfl
  · subst h3; simp only [List.cons_append, List.nil_append]; rw [jpStrBody]; rfl
  · subst h4; simp only [List.cons_append, List.nil_append]; rw [jpStrBody]; rfl
  · subst h5; simp only [List.cons_append, List.nil_append]; rw [jpStrBody]; rfl
  · subst h6; simp only [List.cons_append, List.nil_append]; rw [jpStrBody]; rfl
  · subst h7; simp only [List.cons_append, List.nil_append]; rw [jpStrBody]; rfl
  · -- the `\u00xx` escape of a remaining control character
    have hd : c.toNat / 16 < 16 := by omega
    have hm : c.toNat % 16 < 16 := by omega
    simp only [List.cons_append, List.nil_append]
    rw [jpStrBody]
    rw [if_neg (by decide), if_pos rfl]
    rw [jpEsc_u _ _ _ _ rest (hexv_lowNibble _ hd) (hexv_lowNibble _ hm)]
    show jpStrBody f (Char.ofNat (c.toNat / 16 * 16 + c.toNat % 16) :: acc) rest
      = jpStrBody f (c :: acc) rest
    rw [show c.toNat / 16 * 16 + c.toNat % 16 = c.toNat from by omega, Char.ofNat_toNat]
  · -- an ordinary character is consumed verbatim
    simp only [List.cons_append, List.nil_append]
    rw [jpStrBody]
    rw [if_neg h1, if_neg h2, if_neg h8]

/-- Parsing a fully escaped body stops exactly at the closing quote. -/
theorem jpStrBody_flat : ∀ (cs : List Char) (f : Nat) (acc rest : List Char),
    cs.length + 1 ≤ f →
    jpStrBody f acc (cs.flatMap jescC ++ '"' :: rest)
      = some (String.mk (acc.reverse ++ cs), rest) := by
  intro cs
  induction cs with
  | nil =>
      intro f acc rest hf
      obtain ⟨g, rfl⟩ : ∃ g, f = g + 1 := ⟨f - 1, by omega⟩
      simp [jpStrBody]
  | cons c cs ih =>
      intro f acc rest hf
      obtain ⟨g, rfl⟩ : ∃ g, f = g + 1 := ⟨f - 1, by omega⟩
      rw [List.flatMap_cons, List.append_assoc, jpStrBody_escC, ih]
      · simp
      · simp only [List.length_cons] at hf; omega

/-- Every escaped character is at least one character long. -/
theorem jescC_len (c : Char) : 1 ≤ (jescC c).length := by
  unfold jescC
  split_ifs <;> simp

/-- An escaped body is at least as long as the body itself. -/
theorem flat_jescC_len (cs : List Char) : cs.length ≤ (cs.flatMap jescC).length := by
  induction cs with
  | nil => simp
  | cons c cs ih =>
      rw [List.flatMap_cons]
      have := jescC_len c
      simp only [List.length_cons, List.length_append]
      omega

/-- The string codec round-trip, with the fuel the parser call sites use. -/
theorem jpStrBody_qStr (s : String) (rest : List Char) :
    jpStrBody ((s.toList.flatMap jescC ++ '"' :: rest).length + 1) []
        (s.toList.flatMap jescC ++ '"' :: rest) = some (s, rest) := by
  rw [jpStrBody_flat]
  · simp [mk_toList]
  · have := flat_jescC_len s.toList
    simp only [List.length_append, List.length_cons]
    omega

/-- `jpVal` on a rendered string. -/
theorem jpVal_qStr (f : Nat) (s : String) (rest : List Char) :
    jpVal (f + 1) (jqStr s ++ rest) = some (.str s, rest) := by
  rw [jqStr_cons]
  simp only [jpVal]
  rw [dropWhile_cons_of_neg (by decide)]
  simp only [if_true]
  rw [jpStrBody_qStr]

/-- `jpPairs` on one rendered string-valued member before a `}`. -/
theorem jpPairs_one (f : Nat) (k v : String) (rest : List Char) :
    jpPairs (f + 2) (jqStr k ++ ':' :: (jqStr v ++ '}' :: rest))
      = some ([(k, .str v)], rest) := by
  rw [jqStr_cons]
  simp only [jpPairs]
  rw [dropWhile_cons_of_neg (by decide)]
  simp only [if_pos rfl, jpStrBody_qStr]
  rw [dropWhile_cons_of_neg (by decide)]
  simp only [List.head?_cons, Option.some.injEq, if_pos rfl, List.tail_cons]
  rw [show (f + 1) = f + 1 from rfl, jpVal_qStr]
  simp only []
  rw [dropWhile_cons_of_neg (by decide)]
  simp [jpPairs]

/-- `jpPairs` on two rendered string-valued members before a `}`. -/
theorem jpPairs_two (f : Nat) (k1 v1 k2 v2 : String) (rest : List Char) :
    jpPairs (f + 3)
        (jqStr k1 ++ ':' :: (jqStr v1 ++ ',' :: (jqStr k2 ++ ':' :: (jqStr v2 ++ '}' :: rest))))
      = some ([(k1, .str v1), (k2, .str v2)], rest) := by
  rw [jqStr_cons]
  simp only [jpPairs]
  rw [dropWhile_cons_of_neg (by decide)]
  simp only [if_pos rfl, jpStrBody_qStr]
  rw [dropWhile_cons_of_neg (by decide)]
  simp only [List.head?_cons, Option.some.injEq, if_pos rfl, List.tail_cons]
  rw [show (f + 2) = (f + 1) + 1 from rfl, jpVal_qStr]
  simp only []
  rw [dropWhile_cons_of_neg (by decide)]
  simp only [List.head?_cons, Option.some.injEq, if_pos rfl, List.tail_cons]
  rw [jqStr_cons k2]
  rw [dropWhile_cons_of_neg (by decide)]
  simp only [if_pos rfl, jpStrBody_qStr]
  rw [dropWhile_cons_of_neg (by decide)]
  simp only [List.head?_cons, Option.some.injEq, if_pos rfl, List.tail_cons]
  rw [jpVal_qStr]
  simp only []
  rw [dropWhile_cons_of_neg (by decide)]
  simp

/-- The rendered form of a file record. -/
theorem jrender_fileJson (fr : FileRec) (x : List Char) :
    jrender (fileJson fr) ++ x
      = '{' :: (jqStr "path" ++ ':' ::
          (jqStr fr.path ++ ',' ::
            (jqStr "content" ++ ':' :: (jqStr fr.content ++ '}' :: x)))) := by
  simp [fileJson, jrender, jrPairs]

/-- `jpVal` on a rendered file record. -/
theorem jpVal_fileObj (f : Nat) (fr : FileRec) (rest : List Char) :
    jpVal (f + 4) (jrender (fileJson fr) ++ rest) = some (fileJson fr, rest) := by
  rw [jrender_fileJson]
  simp only [jpVal]
  rw [dropWhile_cons_of_neg (by decide)]
  simp only []
  rw [jqStr_cons]
  rw [dropWhile_cons_of_neg (by decide)]
  simp only [List.head?_cons, Option.some.injEq, Char.reduceEq, reduceIte]
  rw [← jqStr_cons, jpPairs_two]
  rfl

/-- `jpItems` on a nonempty rendered list of file records. -/
theorem jpItems_files : ∀ (frs : List FileRec) (fr : FileRec) (f : Nat) (rest : List Char),
    jpItems (frs.length + f + 5) (jrItems ((fr :: frs).map fileJson) ++ ']' :: rest)
      = some ((fr :: frs).map fileJson, rest) := by
  intro frs
  induction frs with
  | nil =>
      intro fr f rest
      simp only [List.map_cons, List.map_nil, jrItems, List.length_nil]
      have key : ∀ G, G = f + 4 →
          jpItems (G + 1) (jrender (fileJson fr) ++ ']' :: rest)
            = some ([fileJson fr], rest) := by
        intro G hG
        simp only [jpItems]
        subst hG
        rw [jpVal_fileObj f fr (']' :: rest)]
        simp only []
        rw [dropWhile_cons_of_neg (by decide)]
        simp only [List.head?_cons, Option.some.injEq, Char.reduceEq, reduceIte,
          List.tail_cons]
      rw [show (0 : Nat) + f + 5 = (f + 4) + 1 from by omega]
      exact key (f + 4) rfl
  | cons fr2 frs2 ih =>
      intro fr f rest
      rw [show ((fr :: fr2 :: frs2).map fileJson) =
            fileJson fr :: ((fr2 :: frs2).map fileJson) from by simp]
      rw [show jrItems (fileJson fr :: (fr2 :: frs2).map fileJson)
            = jrender (fileJson fr) ++ ',' :: jrItems ((fr2 :: frs2).map fileJson) from by
          simp [jrItems]]
      have key : ∀ G, G = frs2.length + f + 5 →
          jpItems (G + 1) ((jrender (fileJson fr) ++
              ',' :: jrItems ((fr2 :: frs2).map fileJson)) ++ ']' :: rest)
            = some (fileJson fr :: (fr2 :: frs2).map fileJson, rest) := by
        intro G hG
        simp only [jpItems]
        rw [List.append_assoc, List.cons_append]
        subst hG
        rw [show frs2.length + f + 5 = (frs2.length + f + 1) + 4 from by omega]
        rw [jpVal_fileObj (frs2.length + f + 1) fr]
        simp only []
        rw [dropWhile_cons_of_neg (by decide)]
        simp only [List.head?_cons, Option.some.injEq, Char.reduceEq, reduceIte,
          List.tail_cons]
        rw [show (frs2.length + f + 1) + 4 = frs2.length + f + 5 from by omega]
        rw [ih fr2 f rest]
      rw [show (fr2 :: frs2).length + f + 5 = (frs2.length + f + 5) + 1 from by
        simp only [List.length_cons]; omega]
      exact key _ rfl

/-- `jpVal` on a rendered array of file records. -/
theorem jpVal_filesArr (f : Nat) (files : List FileRec) (rest : List Char) :
    jpVal (files.length + f + 6) (jrender (.arr (files.map fileJson)) ++ rest)
      = some (.arr (files.map fileJson), rest) := by
  match files with
  | [] =>
      rw [show ([] : List FileRec).length + f + 6 = (f + 5) + 1 from by simp]
      simp only [List.map_nil, jrender, jrItems, jpVal]
      rw [show ('[' :: ([] ++ [']']) ++ rest) = '[' :: (']' :: rest) from by simp]
      rw [dropWhile_cons_of_neg (by decide)]
      simp only []
      rw [dropWhile_cons_of_neg (by decide)]
      simp only [List.head?_cons, Option.some.injEq, Char.reduceEq, reduceIte,
        List.tail_cons]
  | fr :: frs =>
      rw [show (fr :: frs).length + f + 6 = (frs.length + (f + 1) + 5) + 1 from by
        simp only [List.length_cons]; omega]
      have hsplit : ∃ y, jrItems ((fr :: frs).map fileJson) ++ ']' :: rest
          = jrender (fileJson fr) ++ y := by
        cases frs with
        | nil => exact ⟨']' :: rest, by simp [jrItems]⟩
        | cons a b =>
            refine ⟨',' :: (jrItems ((a :: b).map fileJson) ++ ']' :: rest), ?_⟩
            simp [jrItems]
      obtain ⟨y, hy⟩ := hsplit
      simp only [jpVal]
      rw [show (jrender (.arr ((fr :: frs).map fileJson)) ++ rest)
            = '[' :: (jrItems ((fr :: frs).map fileJson) ++ ']' :: rest) from by
          simp [jrender]]
      rw [dropWhile_cons_of_neg (by decide)]
      rw [hy, jrender_fileJson]
      simp only []
      rw [dropWhile_cons_of_neg (by decide)]
      simp only [List.head?_cons, Option.some.injEq, Char.reduceEq, reduceIte]
      rw [← jrender_fileJson, ← hy]
      rw [jpItems_files frs fr (f + 1) rest]

/-- The length of a rendered quoted string is at least 2. -/
theorem jqStr_len (s : String) : 2 ≤ (jqStr s).length := by
  simp [jqStr]

/-- The length of a rendered file record is at least 6. -/
theorem fileObj_len (fr : FileRec) : 6 ≤ (jrender (fileJson fr)).length := by
  have h := congrArg List.length (jrender_fileJson fr [])
  simp only [List.append_nil, List.length_append, List.length_cons] at h
  have h1 := jqStr_len "path"
  have h2 := jqStr_len fr.path
  have h3 := jqStr_len "content"
  have h4 := jqStr_len fr.content
  omega

/-- A rendered nonempty file list is longer than the file count plus 3. -/
theorem jrItems_files_len : ∀ (frs : List FileRec) (fr : FileRec),
    (fr :: frs).length + 3 ≤ (jrItems ((fr :: frs).map fileJson)).length := by
  intro frs
  induction frs with
  | nil =>
      intro fr
      simp only [List.map_cons, List.map_nil, jrItems, List.length_cons, List.length_nil]
      have := fileObj_len fr
      omega
  | cons a b ih =>
      intro fr
      rw [show ((fr :: a :: b).map fileJson) = fileJson fr :: ((a :: b).map fileJson) from by simp]
      rw [show jrItems (fileJson fr :: (a :: b).map fileJson)
            = jrender (fileJson fr) ++ ',' :: jrItems ((a :: b).map fileJson) from by
          simp [jrItems]]
      have h1 := fileObj_len fr
      have h2 := ih a
      simp only [List.length_append, List.length_cons] at *
      omega

/-- The full `JSON.parse` round-trip on a rendered array of file records. -/
theorem jparseL_files (files : List FileRec) :
    jparseL (jrender (.arr (files.map fileJson))) = some (.arr (files.map fileJson)) := by
  cases files with
  | nil => rfl
  | cons fr frs =>
      have hlen : (fr :: frs).length + 5 ≤ (jrender (.arr ((fr :: frs).map fileJson))).length := by
        have h1 := jrItems_files_len frs fr
        rw [show jrender (.arr ((fr :: frs).map fileJson))
              = '[' :: (jrItems ((fr :: frs).map fileJson) ++ [']']) from by simp [jrender]]
        simp only [List.length_cons, List.length_append, List.length_nil] at *
        omega
      obtain ⟨g, hg⟩ : ∃ g, (jrender (.arr ((fr :: frs).map fileJson))).length + 1
          = (fr :: frs).length + g + 6 := ⟨(jrender (.arr ((fr :: frs).map fileJson))).length -
            (fr :: frs).length - 5, by omega⟩
      simp only [jparseL]
      rw [hg]
      have hval := jpVal_filesArr g (fr :: frs) []
      rw [List.append_nil] at hval
      rw [hval]
      simp

/-- The four-strategy extractor `extractJSON` installed by
`scripts/fix_extract.py`. -/
def extractJSON (s : String) : List Json :=
  let t := s.toList
  match strat1 t with
  | some es => es
  | none =>
      match strat2 t with
      | some es => es
      | none =>
          let best := strat3 t
          if best.length > 0 then best else strat4 t

/-! ## When the repair pass is the identity

`cleanFor close l` says no comma in `l` is followed by optional `\s`
whitespace and then `close`; on such texts the regex pass `commaFix close`
rewrites nothing.  `cleanSeg` is the segment-compositional strengthening
that additionally forbids a comma whose whitespace run reaches the end of
the segment, so it is closed under concatenation. -/

def cleanFor (close : Char) : List Char → Bool
  | [] => true
  | c :: cs =>
      (if c = ',' then
        match cs.dropWhile jsWs with
        | d :: _ => decide (d ≠ close)
        | [] => true
      else true) && cleanFor close cs

def cleanSeg (close : Char) : List Char → Bool
  | [] => true
  | c :: cs =>
      (if c = ',' then
        match cs.dropWhile jsWs with
        | d :: _ => decide (d ≠ close)
        | [] => false
      else true) && cleanSeg close cs

theorem dropWhile_append_of_ne_nil {p : Char → Bool} :
    ∀ {l : List Char} (r : List Char), l.dropWhile p ≠ [] →
      (l ++ r).dropWhile p = l.dropWhile p ++ r := by
  intro l
  induction l with
  | nil => intro r h; exact absurd rfl h
  | cons c cs ih =>
      intro r h
      by_cases hc : p c
      · simp only [List.cons_append, List.dropWhile_cons_of_pos hc] at h ⊢
        exact ih r h
      · simp only [List.cons_append, List.dropWhile_cons_of_neg hc]

/-- `commaFix` rewrites nothing on a clean text, whatever the fuel. -/
theorem commaFix_id (close : Char) :
    ∀ (fuel : Nat) (l : List Char), cleanFor close l = true →
      commaFix close fuel l = l := by
  intro fuel
  induction fuel with
  | zero => intro l _; cases l <;> rfl
  | succ f ih =>
      intro l hl
      cases l with
      | nil => rfl
      | cons c cs =>
          rw [cleanFor, Bool.and_eq_true] at hl
          obtain ⟨hhead, htail⟩ := hl
          rw [commaFix]
          by_cases hc : c = ','
          · rw [if_pos hc]
            rw [if_pos hc] at hhead
            cases hdw : cs.dropWhile jsWs with
            | nil => rw [ih cs htail]
            | cons d tl =>
                rw [hdw] at hhead
                simp only [decide_eq_true_eq] at hhead
                simp only []
                rw [if_neg hhead, ih cs htail]
          · rw [if_neg hc, ih cs htail]

theorem cleanSeg_cleanFor (close : Char) :
    ∀ l : List Char, cleanSeg close l = true → cleanFor close l = true := by
  intro l
  induction l with
  | nil => intro _; rfl
  | cons c cs ih =>
      intro h
      rw [cleanSeg, Bool.and_eq_true] at h
      rw [cleanFor, Bool.and_eq_true]
      refine ⟨?_, ih h.2⟩
      have h1 := h.1
      by_cases hc : c = ','
      · rw [if_pos hc] at h1 ⊢
        cases hdw : cs.dropWhile jsWs with
        | nil => rfl
        | cons d tl => rw [hdw] at h1; exact h1
      · rw [if_neg hc]

/-- The head condition of `cleanSeg`/`cleanFor` transfers across an
append when the left part is a strict clean segment. -/
theorem cleanSeg_head_append {close c : Char} {cs b : List Char}
    (h1 : (if c = ',' then
        match cs.dropWhile jsWs with
        | d :: _ => decide (d ≠ close)
        | [] => false
      else true) = true) :
    (if c = ',' then
        match (cs ++ b).dropWhile jsWs with
        | d :: _ => decide (d ≠ close)
        | [] => false
      else true) = true := by
  by_cases hc : c = ','
  · rw [if_pos hc] at h1 ⊢
    cases hdw : cs.dropWhile jsWs with
    | nil => rw [hdw] at h1; exact absurd h1 (by simp)
    | cons d tl =>
        rw [dropWhile_append_of_ne_nil b (by rw [hdw]; simp), hdw]
        rw [hdw] at h1
        exact h1
  · rw [if_neg hc]

theorem cleanSeg_append (close : Char) :
    ∀ (a b : List Char), cleanSeg close a = true → cleanSeg close b = true →
      cleanSeg close (a ++ b) = true := by
  intro a
  induction a with
  | nil => intro b _ hb; exact hb
  | cons c cs ih =>
      intro b ha hb
      rw [cleanSeg, Bool.and_eq_true] at ha
      rw [List.cons_append, cleanSeg, Bool.and_eq_true]
      exact ⟨cleanSeg_head_append ha.1, ih b ha.2 hb⟩

theorem cleanFor_append (close : Char) :
    ∀ (a b : List Char), cleanSeg close a = true → cleanFor close b = true →
      cleanFor close (a ++ b) = true := by
  intro a
  induction a with
  | nil => intro b _ hb; exact hb
  | cons c cs ih =>
      intro b ha hb
      rw [cleanSeg, Bool.and_eq_true] at ha
      rw [List.cons_append, cleanFor, Bool.and_eq_true]
      refine ⟨?_, ih b ha.2 hb⟩
      have h1 := @cleanSeg_head_append close c cs b ha.1
      by_cases hc : c = ','
      · rw [if_pos hc] at h1 ⊢
        cases hdw : (cs ++ b).dropWhile jsWs with
        | nil => rfl
        | cons d tl => rw [hdw] at h1; exact h1
      · rw [if_neg hc]

theorem cleanSeg_cons_of_ne {close c : Char} {l : List Char} (hc : c ≠ ',') :
    cleanSeg close (c :: l) = cleanSeg close l := by
  rw [cleanSeg, if_neg hc, Bool.true_and]

/-- A text without commas is trivially a clean segment. -/
theorem cleanSeg_of_no_comma (close : Char) :
    ∀ l : List Char, (∀ c ∈ l, c ≠ ',') → cleanSeg close l = true := by
  intro l
  induction l with
  | nil => intro _; rfl
  | cons c cs ih =>
      intro h
      rw [cleanSeg_cons_of_ne (h c (by simp))]
      exact ih fun x hx => h x (by simp [hx])

/-- A comma immediately followed by a rendered string is a clean step. -/
theorem cleanSeg_comma_qStr {close : Char} (hq : ('"' : Char) ≠ close)
    (s : String) (x : List Char) :
    cleanSeg close (',' :: (jqStr s ++ x)) = cleanSeg close (jqStr s ++ x) := by
  rw [cleanSeg, if_pos rfl, jqStr_cons, dropWhile_cons_of_neg (by decide)]
  simp [hq]

/-! ## The JSON serialization of a file list and its round-trip through
`extractJSON` (claim C1) -/

/-- `JSON.stringify` of an array of `{path, content}` records. -/
def serializeFiles (files : List FileRec) : String :=
  String.mk (jrender (.arr (files.map fileJson)))

/-- The hypothesis of the amended round-trip claim: the rendered (escaped,
quoted) form of the string contains no comma followed by optional `\s`
whitespace and then `}` or `]`.  Escaping preserves commas, braces and
plain spaces and inserts a backslash before everything it rewrites, so
this coincides with "the raw string has no comma followed by unescaped
whitespace and then a closing brace or bracket". -/
def strOk (s : String) : Bool :=
  cleanSeg '}' (jqStr s) && cleanSeg ']' (jqStr s)

/-- A rendered file record is a clean segment for each closing character. -/
theorem cleanSeg_fileObj {close : Char} (hq : ('"' : Char) ≠ close)
    (fr : FileRec) (hp : cleanSeg close (jqStr fr.path) = true)
    (hc : cleanSeg close (jqStr fr.content) = true) :
    cleanSeg close (jrender (fileJson fr)) = true := by
  have h := jrender_fileJson fr []
  rw [List.append_nil] at h
  rw [h]
  rw [cleanSeg_cons_of_ne (by decide)]
  refine cleanSeg_append close _ _ ?_ ?_
  · exact cleanSeg_of_no_comma close _ (by decide)
  · rw [cleanSeg_cons_of_ne (by decide)]
    refine cleanSeg_append close _ _ hp ?_
    rw [cleanSeg_comma_qStr hq]
    refine cleanSeg_append close _ _ ?_ ?_
    · exact cleanSeg_of_no_comma close _ (by decide)
    · rw [cleanSeg_cons_of_ne (by decide)]
      refine cleanSeg_append close _ _ hc ?_
      rw [cleanSeg_cons_of_ne (by decide)]
      rfl

/-- A rendered nonempty file list starts with `{`. -/
theorem jrItems_map_head (fr : FileRec) (frs : List FileRec) :
    ∃ z, jrItems ((fr :: frs).map fileJson) = '{' :: z := by
  cases frs with
  | nil =>
      refine ⟨jqStr "path" ++ ':' :: (jqStr fr.path ++ ',' ::
        (jqStr "content" ++ ':' :: (jqStr fr.content ++ '}' :: []))), ?_⟩
      have h := jrender_fileJson fr []
      rw [List.append_nil] at h
      simp only [List.map_cons, List.map_nil]
      rw [show jrItems [fileJson fr] = jrender (fileJson fr) from rfl]
      exact h
  | cons a b =>
      refine ⟨jqStr "path" ++ ':' :: (jqStr fr.path ++ ',' ::
        (jqStr "content" ++ ':' :: (jqStr fr.content ++ '}' ::
          (',' :: jrItems ((a :: b).map fileJson))))), ?_⟩
      simp only [List.map_cons]
      rw [show jrItems (fileJson fr :: fileJson a :: b.map fileJson)
            = jrender (fileJson fr) ++ ',' :: jrItems (fileJson a :: b.map fileJson) from by
          simp [jrItems]]
      exact jrender_fileJson fr _

/-- The rendered item list of clean file records is a clean segment. -/
theorem cleanSeg_items {close : Char} (hq : ('"' : Char) ≠ close)
    (hb : ('{' : Char) ≠ close) :
    ∀ files : List FileRec,
      (∀ f ∈ files, cleanSeg close (jqStr f.path) = true ∧
        cleanSeg close (jqStr f.content) = true) →
      cleanSeg close (jrItems (files.map fileJson)) = true := by
  intro files
  induction files with
  | nil => intro _; rfl
  | cons fr frs ih =>
      intro h
      have hfr := h fr (by simp)
      cases frs with
      | nil =>
          show cleanSeg close (jrItems [fileJson fr]) = true
          rw [show jrItems [fileJson fr] = jrender (fileJson fr) from rfl]
          exact cleanSeg_fileObj hq fr hfr.1 hfr.2
      | cons a b =>
          rw [show ((fr :: a :: b).map fileJson)
                = fileJson fr :: ((a :: b).map fileJson) from by simp]
          rw [show jrItems (fileJson fr :: (a :: b).map fileJson)
                = jrender (fileJson fr) ++ ',' :: jrItems ((a :: b).map fileJson) from by
              simp [jrItems]]
          refine cleanSeg_append close _ _ (cleanSeg_fileObj hq fr hfr.1 hfr.2) ?_
          obtain ⟨z, hz⟩ := jrItems_map_head a b
          rw [cleanSeg, if_pos rfl, hz, dropWhile_cons_of_neg (by decide)]
          rw [Bool.and_eq_true]
          constructor
          · simp [hb]
          · rw [← hz]
            exact ih fun f hf => h f (by simp [hf])

/-- The repair pass leaves a rendered file array unchanged when every
path and content is clean. -/
theorem repair_serialized (files : List FileRec)
    (h : ∀ f ∈ files, strOk f.path = true ∧ strOk f.content = true) :
    repair (jrender (.arr (files.map fileJson))) = jrender (.arr (files.map fileJson)) := by
  have hsplit : jrender (.arr (files.map fileJson))
      = ('[' :: jrItems (files.map fileJson)) ++ [']'] := by
    simp [jrender]
  have hclean : ∀ close : Char, ('"' : Char) ≠ close → ('{' : Char) ≠ close →
      (∀ f ∈ files, cleanSeg close (jqStr f.path) = true ∧
        cleanSeg close (jqStr f.content) = true) →
      cleanFor close (jrender (.arr (files.map fileJson))) = true := by
    intro close hq hb hstr
    rw [hsplit]
    refine cleanFor_append close _ _ ?_ ?_
    · rw [cleanSeg_cons_of_ne (by decide)]
      exact cleanSeg_items hq hb files hstr
    · simp [cleanFor]
  have hstrA : ∀ f ∈ files, cleanSeg '}' (jqStr f.path) = true ∧
      cleanSeg '}' (jqStr f.content) = true := by
    intro f hf
    have := h f hf
    simp only [strOk, Bool.and_eq_true] at this
    exact ⟨this.1.1, this.2.1⟩
  have hstrB : ∀ f ∈ files, cleanSeg ']' (jqStr f.path) = true ∧
      cleanSeg ']' (jqStr f.content) = true := by
    intro f hf
    have := h f hf
    simp only [strOk, Bool.and_eq_true] at this
    exact ⟨this.1.2, this.2.2⟩
  rw [repair]
  rw [commaFix_id '}' _ _ (hclean '}' (by decide) (by decide) hstrA)]
  rw [commaFix_id ']' _ _ (hclean ']' (by decide) (by decide) hstrB)]

/-- `String.prototype.trim` on a text with non-whitespace ends. -/
theorem jsTrim_ends {c d : Char} (hc : jsWs c = false) (hd : jsWs d = false)
    (x : List Char) : jsTrim (c :: (x ++ [d])) = c :: (x ++ [d]) := by
  rw [jsTrim, dropWhile_cons_of_neg hc]
  rw [show (c :: (x ++ [d])).reverse = d :: (x.reverse ++ [c]) from by simp]
  rw [dropWhile_cons_of_neg hd]
  simp

/-- Strategy 1 recovers a rendered file array verbatim when every string is
clean for the repair pass. -/
theorem strat1_serialized (files : List FileRec)
    (h : ∀ f ∈ files, strOk f.path = true ∧ strOk f.content = true) :
    strat1 (jrender (.arr (files.map fileJson))) = some (files.map fileJson) := by
  have hsplit : jrender (.arr (files.map fileJson))
      = '[' :: (jrItems (files.map fileJson) ++ [']']) := by
    simp [jrender]
  have htrim : jsTrim (jrender (.arr (files.map fileJson)))
      = jrender (.arr (files.map fileJson)) := by
    rw [hsplit]
    exact jsTrim_ends (by decide) (by decide) _
  simp only [strat1, htrim]
  rw [repair_serialized files h, jparseL_files files]
  rw [hsplit]
  simp

/-- C1, amended.  The round-trip `extract (serialize files) = files` holds
whenever no rendered `path` or `content` string contains a comma followed
by optional whitespace and then `}` or `]` (the `strOk` condition); the
trailing-comma repair pass rewrites nothing on such input and the direct
parse of strategy 1 recovers the array exactly. -/
theorem c1_extract_roundtrip (files : List FileRec)
    (h : ∀ f ∈ files, strOk f.path = true ∧ strOk f.content = true) :
    extractJSON (serializeFiles files) = files.map fileJson := by
  have h1 := strat1_serialized files h
  simp only [extractJSON]
  rw [show (serializeFiles files).toList = jrender (.arr (files.map fileJson)) from rfl]
  rw [h1]

/-- Witness for C1: a concrete clean file list round-trips. -/
theorem c1_extract_roundtrip_witness :
    extractJSON (serializeFiles [⟨"a.ts", "let x = 1;"⟩]) = [fileJson ⟨"a.ts", "let x = 1;"⟩] :=
  c1_extract_roundtrip [⟨"a.ts", "let x = 1;"⟩] (by decide)

/-- Counterexample to C1 as stated: a content string containing the
character sequence `,\x7d` is corrupted by the repair pass (the comma is
deleted inside the string literal), so the round-trip fails on it. -/
theorem c1_counterexample :
    extractJSON (serializeFiles [⟨"a", ",\x7d"⟩]) ≠ [fileJson ⟨"a", ",\x7d"⟩] := by
  rw [show extractJSON (serializeFiles [⟨"a", ",\x7d"⟩]) = [fileJson ⟨"a", "\x7d"⟩] from rfl]
  simp only [fileJson, ne_eq, List.cons.injEq, and_true, Json.obj.injEq,
    Prod.mk.injEq, Json.str.injEq, true_and]
  decide

/-! ## Scan budgets (C10) -/

/-- The depth scan never reports an index outside its budget window. -/
theorem depthScan_lt :
    ∀ (b : Nat) (l : List Char) (i : Nat) (d : Int) (inStr esc : Bool) (r : Nat),
      depthScan l i d inStr esc b = some r → i ≤ r ∧ r < i + b := by
  intro b
  induction b with
  | zero =>
      intro l i d inStr esc r h
      cases l <;> simp [depthScan] at h
  | succ b ih =>
      intro l i d inStr esc r h
      cases l with
      | nil => simp [depthScan] at h
      | cons c cs =>
          simp only [depthScan] at h
          split_ifs at h
          all_goals first
            | (rw [Option.some.injEq] at h; omega)
            | (have hw := ih cs (i + 1) _ _ _ r h; omega)

/-- The content-end scan never reports an index outside its budget window. -/
theorem contentScan_lt :
    ∀ (b : Nat) (l : List Char) (i : Nat) (esc : Bool) (r : Nat),
      contentScan l i esc b = some r → i ≤ r ∧ r < i + b := by
  intro b
  induction b with
  | zero =>
      intro l i esc r h
      cases l <;> simp [contentScan] at h
  | succ b ih =>
      intro l i esc r h
      cases l with
      | nil => simp [contentScan] at h
      | cons c cs =>
          simp only [contentScan] at h
          split_ifs at h
          all_goals first
            | (rw [Option.some.injEq] at h; omega)
            | (have hw := ih cs (i + 1) _ r h; omega)

/-- C10.  Strategy 3 closes a candidate only within 200000 characters of
its opening bracket, and strategy 4 bounds each content-string search to
100000 characters: a matching bracket (or content end) beyond the budget
is never found, so such a candidate contributes nothing. -/
theorem c10_scan_bounds :
    (∀ (t : List Char) (s e : Nat), arrClose t s = some e → s ≤ e ∧ e < s + 200000) ∧
    (∀ (t : List Char) (i e : Nat),
      contentScan (t.drop i) i false 100000 = some e → i ≤ e ∧ e < i + 100000) := by
  constructor
  · intro t s e h
    rw [arrClose] at h
    exact depthScan_lt 200000 (t.drop s) s 0 false false e h
  · intro t i e h
    exact contentScan_lt 100000 (t.drop i) i false e h

/-- Witness for C10: both bounds at concrete scans. -/
theorem c10_scan_bounds_witness :
    ((0 : Nat) ≤ 3 ∧ 3 < 0 + 200000) ∧ ((0 : Nat) ≤ 1 ∧ 1 < 0 + 100000) :=
  ⟨c10_scan_bounds.1 ['[', '\x7b', '\x7d', ']'] 0 3 (by decide),
   c10_scan_bounds.2 ['x', '"', '\x7d'] 0 1 (by decide)⟩
/-! ## Strategy 3 checks only the first element (C9) -/

/-- One unfolding of the scan loop, with the body written out. -/
theorem strat3Loop_succ (t : List Char) (fuel pos : Nat) (best : List Json) :
    strat3Loop t (fuel + 1) pos best =
      match idxFrom t '[' pos with
      | none => best
      | some s =>
          strat3Loop t fuel (s + 1)
            (if braceAhead t s then
              match arrClose t s with
              | some e =>
                  if s < e then
                    match candParse t s e with
                    | some parsed => if parsed.length > best.length then parsed else best
                    | none => best
                  else best
              | none => best
            else best) := rfl

/-- A candidate the validity test accepts is nonempty and its first element
has a truthy `path` member. -/
theorem candParse_head (t : List Char) (s e : Nat) (l : List Json)
    (h : candParse t s e = some l) :
    ∃ hd tl, l = hd :: tl ∧ pathTruthy hd = true := by
  rw [candParse] at h
  split at h
  · rename_i x xs heq
    by_cases hp : pathTruthy x = true
    · rw [if_pos hp, Option.some.injEq] at h
      exact ⟨x, xs, h.symm, hp⟩
    · rw [if_neg hp] at h
      exact absurd h (by simp)
  · exact absurd h (by simp)

/-- The loop invariant: the running best is empty or starts with an element
whose `path` member is truthy, and the loop preserves this. -/
theorem strat3Loop_first (t : List Char) :
    ∀ (fuel pos : Nat) (best : List Json),
      (best = [] ∨ ∃ hd tl, best = hd :: tl ∧ pathTruthy hd = true) →
      (strat3Loop t fuel pos best = [] ∨
        ∃ hd tl, strat3Loop t fuel pos best = hd :: tl ∧ pathTruthy hd = true) := by
  intro fuel
  induction fuel with
  | zero => intro pos best hb; exact hb
  | succ fuel ih =>
      intro pos best hb
      rw [strat3Loop_succ]
      cases hidx : idxFrom t '[' pos with
      | none => exact hb
      | some s =>
          refine ih (s + 1) _ ?_
          by_cases hba : braceAhead t s = true
          · rw [if_pos hba]
            cases hac : arrClose t s with
            | none => exact hb
            | some e =>
                simp only []
                by_cases hse : s < e
                · rw [if_pos hse]
                  cases hcp : candParse t s e with
                  | none => exact hb
                  | some parsed =>
                      simp only []
                      by_cases hl : parsed.length > best.length
                      · rw [if_pos hl]
                        obtain ⟨hd, tl, hp1, hp2⟩ := candParse_head t s e parsed hcp
                        exact Or.inr ⟨hd, tl, hp1, hp2⟩
                      · rw [if_neg hl]
                        exact hb
                · rw [if_neg hse]
                  exact hb
          · rw [if_neg hba]
            exact hb

/-- C9, amended.  Strategy 3 keeps a closed candidate span only if it parses
to a non-empty array whose first element has a truthy `path` member; the
validity test reads `parsed[0].path` only, so elements after the first are
not checked.  Consequently what strategy 3 returns is empty or starts with
an element carrying a truthy `path`. -/
theorem c9_first_element_path (t : List Char) :
    strat3 t = [] ∨ ∃ hd tl, strat3 t = hd :: tl ∧ pathTruthy hd = true := by
  rw [strat3]
  exact strat3Loop_first t (t.length + 1) 0 [] (Or.inl rfl)

/-- Counterexample to C9 as stated: on this input strategy 3 (reached after
strategies 1 and 2 fail) returns a two-element array whose second element
has no `path` key at all. -/
theorem c9_counterexample :
    extractJSON "xx [\x7b\"path\":\"a\"\x7d,\x7b\"content\":\"y\"\x7d]" =
      [Json.obj [("path", Json.str "a")], Json.obj [("content", Json.str "y")]] ∧
    jfield [("content", Json.str "y")] "path" = none :=
  ⟨rfl, rfl⟩
/-! ## Strategy 3 as a fold over its candidates (C2) -/

/-- A successful `scanIdx` result points at the character scanned for. -/
theorem scanIdx_hit (ch : Char) :
    ∀ (l : List Char) (i r : Nat), scanIdx ch l i = some r →
      (l.drop (r - i)).head? = some ch := by
  intro l
  induction l with
  | nil => intro i r h; simp [scanIdx] at h
  | cons c cs ih =>
      intro i r h
      rw [scanIdx] at h
      by_cases hc : c = ch
      · rw [if_pos hc, Option.some.injEq] at h
        rw [← h, Nat.sub_self]
        simp [hc]
      · rw [if_neg hc] at h
        have hb := scanIdx_bounds ch cs (i + 1) r h
        have hr := ih (i + 1) r h
        rw [show r - i = (r - (i + 1)) + 1 from by omega]
        simp only [List.drop_succ_cons]
        exact hr

/-- `scanIdx` returns the first hit: no earlier position matches. -/
theorem scanIdx_before (ch : Char) :
    ∀ (l : List Char) (i r : Nat), scanIdx ch l i = some r →
      ∀ k, k < r - i → (l.drop k).head? ≠ some ch := by
  intro l
  induction l with
  | nil => intro i r h; simp [scanIdx] at h
  | cons c cs ih =>
      intro i r h k hk
      rw [scanIdx] at h
      by_cases hc : c = ch
      · rw [if_pos hc, Option.some.injEq] at h
        exact absurd hk (by omega)
      · rw [if_neg hc] at h
        cases k with
        | zero =>
            simp only [List.drop_zero, List.head?_cons]
            intro hcc
            exact hc (Option.some.inj hcc)
        | succ k =>
            simp only [List.drop_succ_cons]
            exact ih (i + 1) r h k (by omega)

/-- A failed `scanIdx` means no position of the window matches. -/
theorem scanIdx_none_no_hit (ch : Char) :
    ∀ (l : List Char) (i : Nat), scanIdx ch l i = none →
      ∀ k, k < l.length → (l.drop k).head? ≠ some ch := by
  intro l
  induction l with
  | nil => intro i _ k hk; simp at hk
  | cons c cs ih =>
      intro i h k hk
      rw [scanIdx] at h
      by_cases hc : c = ch
      · rw [if_pos hc] at h
        exact absurd h (by simp)
      · rw [if_neg hc] at h
        cases k with
        | zero =>
            simp only [List.drop_zero, List.head?_cons]
            intro hcc
            exact hc (Option.some.inj hcc)
        | succ k =>
            simp only [List.drop_succ_cons]
            exact ih (i + 1) h k (by simpa using hk)

/-- `indexOf(ch, pos)` success: in range, a hit, and the first one. -/
theorem idxFrom_spec (t : List Char) (ch : Char) (pos s : Nat)
    (h : idxFrom t ch pos = some s) :
    pos ≤ s ∧ s < t.length ∧ (t.drop s).head? = some ch ∧
      ∀ j, pos ≤ j → j < s → (t.drop j).head? ≠ some ch := by
  rw [idxFrom] at h
  have hb := scanIdx_bounds ch (t.drop pos) pos s h
  rw [List.length_drop] at hb
  refine ⟨hb.1, by omega, ?_, ?_⟩
  · have hh := scanIdx_hit ch (t.drop pos) pos s h
    rw [List.drop_drop, show pos + (s - pos) = s from by omega] at hh
    exact hh
  · intro j hj1 hj2
    have hh := scanIdx_before ch (t.drop pos) pos s h (j - pos) (by omega)
    rw [List.drop_drop, show pos + (j - pos) = j from by omega] at hh
    exact hh

/-- `indexOf(ch, pos)` failure: no position from `pos` on matches. -/
theorem idxFrom_none_spec (t : List Char) (ch : Char) (pos : Nat)
    (h : idxFrom t ch pos = none) :
    ∀ j, pos ≤ j → j < t.length → (t.drop j).head? ≠ some ch := by
  rw [idxFrom] at h
  intro j hj1 hj2
  have hh := scanIdx_none_no_hit ch (t.drop pos) pos h (j - pos)
    (by rw [List.length_drop]; omega)
  rw [List.drop_drop, show pos + (j - pos) = j from by omega] at hh
  exact hh

/-- No opening bracket at `j` means no candidate at `j`. -/
theorem candAt_none (t : List Char) (j : Nat) (h : (t.drop j).head? ≠ some '[') :
    candAt t j = none := by
  rw [candAt, if_neg h]

/-- The loop body computes the step function of the fold on `candAt`. -/
theorem body_candAt (t : List Char) (s : Nat) (best : List Json)
    (hhead : (t.drop s).head? = some '[') :
    (if braceAhead t s then
      match arrClose t s with
      | some e =>
          if s < e then
            match candParse t s e with
            | some parsed => if parsed.length > best.length then parsed else best
            | none => best
          else best
      | none => best
    else best) =
    (match candAt t s with
      | some c => if c.length > best.length then c else best
      | none => best) := by
  rw [candAt, if_pos hhead]
  by_cases hba : braceAhead t s = true
  · rw [if_pos hba, if_pos hba]
    cases hac : arrClose t s with
    | none => rfl
    | some e =>
        simp only []
        by_cases hse : s < e
        · rw [if_pos hse, if_pos hse]
        · rw [if_neg hse, if_neg hse]
  · rw [if_neg hba, if_neg hba]

/-- The candidates the scan can still visit from position `pos` on. -/
def candsFrom (t : List Char) (pos : Nat) : List (List Json) :=
  (List.range' pos (t.length - pos)).filterMap (candAt t)

/-- The scan loop is the fold of "keep the strictly longer candidate" over
the candidates from the current position, for any sufficient fuel. -/
theorem strat3Loop_fold (t : List Char) :
    ∀ (fuel pos : Nat) (best : List Json), t.length ≤ pos + fuel →
      strat3Loop t fuel pos best =
        (candsFrom t pos).foldl (fun b c => if c.length > b.length then c else b) best := by
  intro fuel
  induction fuel with
  | zero =>
      intro pos best hf
      rw [candsFrom, show t.length - pos = 0 from by omega]
      rfl
  | succ fuel ih =>
      intro pos best hf
      rw [strat3Loop_succ]
      cases hidx : idxFrom t '[' pos with
      | none =>
          have hnil : candsFrom t pos = [] := by
            rw [candsFrom, List.filterMap_eq_nil_iff]
            intro j hj
            rw [List.mem_range'_1] at hj
            exact candAt_none t j (idxFrom_none_spec t '[' pos hidx j hj.1 (by omega))
          rw [hnil]
          rfl
      | some s =>
          simp only []
          obtain ⟨hps, hst, hhead, hfirst⟩ := idxFrom_spec t '[' pos s hidx
          have hsplit : List.range' pos (t.length - pos)
              = List.range' pos (s - pos) ++ List.range' s (t.length - s) := by
            have hap := List.range'_append pos (s - pos) (t.length - s) 1
            rw [show pos + 1 * (s - pos) = s from by omega,
              show t.length - s + (s - pos) = t.length - pos from by omega] at hap
            exact hap.symm
          have hnil : (List.range' pos (s - pos)).filterMap (candAt t) = [] := by
            rw [List.filterMap_eq_nil_iff]
            intro j hj
            rw [List.mem_range'_1] at hj
            exact candAt_none t j (hfirst j hj.1 (by omega))
          have hsucc : List.range' s (t.length - s)
              = s :: List.range' (s + 1) (t.length - (s + 1)) := by
            rw [show t.length - s = (t.length - (s + 1)) + 1 from by omega, List.range'_succ]
          rw [body_candAt t s best hhead, candsFrom, hsplit, List.filterMap_append, hnil,
            List.nil_append, hsucc, List.filterMap_cons]
          cases hca : candAt t s with
          | none =>
              simp only []
              exact ih (s + 1) best (by omega)
          | some c =>
              simp only [List.foldl_cons]
              exact ih (s + 1) (if c.length > best.length then c else best) (by omega)

/-- Unfolding the spec-modelled first-longest selection. -/
theorem firstMaxLen_cons (c : List Json) (cs : List (List Json)) :
    firstMaxLen (c :: cs)
      = if (firstMaxLen cs).length > c.length then firstMaxLen cs else c := rfl

/-- The fold of "keep the strictly longer candidate" picks the first
candidate of maximal length. -/
theorem foldBest_firstMaxLen :
    ∀ (l : List (List Json)) (best : List Json),
      l.foldl (fun b c => if c.length > b.length then c else b) best =
        if (firstMaxLen l).length > best.length then firstMaxLen l else best := by
  intro l
  induction l with
  | nil => intro best; simp [firstMaxLen]
  | cons c cs ih =>
      intro best
      rw [List.foldl_cons, ih, firstMaxLen_cons]
      split_ifs <;> first | rfl | omega

/-- An accepted candidate is nonempty (its first element passed the test). -/
theorem candAt_shape (t : List Char) (s : Nat) (c : List Json)
    (h : candAt t s = some c) :
    ∃ hd tl, c = hd :: tl ∧ pathTruthy hd = true := by
  rw [candAt] at h
  split_ifs at h with h1 h2
  · cases hac : arrClose t s with
    | none => rw [hac] at h; exact absurd h (by simp)
    | some e =>
        rw [hac] at h
        simp only [] at h
        by_cases hse : s < e
        · rw [if_pos hse] at h
          exact candParse_head t s e c h
        · rw [if_neg hse] at h
          exact absurd h (by simp)

/-- The first-longest selection of a nonempty list picks a member. -/
theorem firstMaxLen_mem : ∀ (l : List (List Json)), l ≠ [] → firstMaxLen l ∈ l := by
  intro l
  induction l with
  | nil => intro h; exact absurd rfl h
  | cons c cs ih =>
      intro _
      rw [firstMaxLen_cons]
      by_cases h2 : (firstMaxLen cs).length > c.length
      · rw [if_pos h2]
        have hne : cs ≠ [] := by
          intro hcs
          rw [hcs] at h2
          simp [firstMaxLen] at h2
        exact List.mem_cons_of_mem c (ih hne)
      · rw [if_neg h2]
        exact List.mem_cons_self c cs

/-- With at least one valid candidate, strategy 3 returns the first longest
candidate, and that result is nonempty. -/
theorem strat3_eq_firstMaxLen (t : List Char) (h3 : strat3Cands t ≠ []) :
    strat3 t = firstMaxLen (strat3Cands t) ∧ 0 < (strat3 t).length := by
  have hc0 : candsFrom t 0 = strat3Cands t := by
    rw [candsFrom, strat3Cands, List.range_eq_range', Nat.sub_zero]
  have hpos : 0 < (firstMaxLen (strat3Cands t)).length := by
    have hmem := firstMaxLen_mem _ h3
    rw [strat3Cands] at hmem
    obtain ⟨s, _, hcs⟩ := List.mem_filterMap.mp hmem
    obtain ⟨hd, tl, hF, _⟩ := candAt_shape t s _ hcs
    rw [strat3Cands, hF]
    simp
  have heq : strat3 t = firstMaxLen (strat3Cands t) := by
    rw [strat3, strat3Loop_fold t (t.length + 1) 0 [] (by omega), hc0,
      foldBest_firstMaxLen]
    rw [if_pos (by simpa using hpos)]
  exact ⟨heq, heq ▸ hpos⟩

/-- C2.  When strategies 1 and 2 fail and the text has at least one valid
candidate array, `extractJSON` returns the candidate with the most file
records, ties broken by first occurrence in the text: the first-longest
element of the candidate list, in opening-bracket order. -/
theorem c2_longest_first (s : String)
    (h1 : strat1 s.toList = none) (h2 : strat2 s.toList = none)
    (h3 : strat3Cands s.toList ≠ []) :
    extractJSON s = firstMaxLen (strat3Cands s.toList) := by
  obtain ⟨heq, hpos⟩ := strat3_eq_firstMaxLen s.toList h3
  simp only [extractJSON, h1, h2]
  rw [if_pos (by simpa using hpos)]
  exact heq

/-- Witness for C2: a text with a one-record candidate and then a
two-record candidate; the two-record one wins. -/
theorem c2_longest_first_witness :
    extractJSON "xx [\x7b\"path\":\"b\"\x7d] yy [\x7b\"path\":\"c\"\x7d,\x7b\"path\":\"d\"\x7d]"
      = firstMaxLen (strat3Cands
          "xx [\x7b\"path\":\"b\"\x7d] yy [\x7b\"path\":\"c\"\x7d,\x7b\"path\":\"d\"\x7d]".toList) :=
  c2_longest_first _ rfl rfl
    (fun hc => absurd (congrArg List.length hc) (by decide))

/-! ## The repair pass on text with trailing commas (C8) -/

/-- A non-comma head passes through the repair pass. -/
theorem commaFix_skip (close : Char) (fuel : Nat) (c : Char) (cs : List Char)
    (hc : c ≠ ',') :
    commaFix close (fuel + 1) (c :: cs) = c :: commaFix close fuel cs := by
  rw [commaFix, if_neg hc]

/-- A comma whose next non-whitespace character is not the closing
character passes through the repair pass. -/
theorem commaFix_comma_safe (close : Char) (fuel : Nat) (d : Char) (rest : List Char)
    (hd : jsWs d = false) (hdc : d ≠ close) :
    commaFix close (fuel + 1) (',' :: d :: rest) = ',' :: commaFix close fuel (d :: rest) := by
  rw [commaFix, if_pos rfl, List.dropWhile_cons_of_neg (by simp [hd])]
  simp only []
  rw [if_neg hdc]

/-- A comma immediately before the closing character is deleted. -/
theorem commaFix_step (close : Char) (fuel : Nat) (rest : List Char)
    (h : jsWs close = false) :
    commaFix close (fuel + 1) (',' :: close :: rest) = close :: commaFix close fuel rest := by
  rw [commaFix, if_pos rfl, List.dropWhile_cons_of_neg (by simp [h])]
  simp

/-- The repair pass is fuel-insensitive once the fuel covers the input:
every step consumes at least one character. -/
theorem commaFix_ge (close : Char) :
    ∀ (f : Nat) (l : List Char) (g : Nat), l.length ≤ f → l.length ≤ g →
      commaFix close f l = commaFix close g l := by
  intro f
  induction f with
  | zero =>
      intro l g hf _
      have hl : l = [] := List.eq_nil_of_length_eq_zero (Nat.le_zero.mp hf)
      subst hl
      cases g <;> rfl
  | succ f ih =>
      intro l g hf hg
      cases l with
      | nil => cases g <;> rfl
      | cons c cs =>
          cases g with
          | zero => simp at hg
          | succ g =>
              rw [commaFix, commaFix]
              by_cases hc : c = ','
              · rw [if_pos hc, if_pos hc]
                cases hdw : cs.dropWhile jsWs with
                | nil =>
                    rw [ih cs g (by simpa using hf) (by simpa using hg)]
                | cons d r3 =>
                    simp only []
                    have hr3 : r3.length < cs.length + 1 := by
                      have h1 : (cs.dropWhile jsWs).length ≤ cs.length :=
                        length_dropWhile_le jsWs cs
                      rw [hdw] at h1
                      simp at h1
                      omega
                    by_cases hdc : d = close
                    · rw [if_pos hdc, if_pos hdc,
                        ih r3 g (by simp at hf; omega) (by simp at hg; omega)]
                    · rw [if_neg hdc, if_neg hdc,
                        ih cs g (by simpa using hf) (by simpa using hg)]
              · rw [if_neg hc, if_neg hc,
                  ih cs g (by simpa using hf) (by simpa using hg)]

/-- The repair pass passes over a clean segment unchanged and continues on
the rest with the leftover fuel. -/
theorem commaFix_seg (close : Char) :
    ∀ (seg : List Char) (fuel : Nat) (tail : List Char),
      cleanSeg close seg = true →
      commaFix close (seg.length + fuel) (seg ++ tail) = seg ++ commaFix close fuel tail := by
  intro seg
  induction seg with
  | nil => intro fuel tail _; simp
  | cons c cs ih =>
      intro fuel tail hseg
      rw [cleanSeg, Bool.and_eq_true] at hseg
      obtain ⟨hhead, htail⟩ := hseg
      rw [show (c :: cs).length + fuel = (cs.length + fuel) + 1 from by simp; omega,
        List.cons_append, commaFix]
      by_cases hc : c = ','
      · rw [if_pos hc]
        rw [if_pos hc] at hhead
        cases hdw : cs.dropWhile jsWs with
        | nil => rw [hdw] at hhead; exact absurd hhead (by simp)
        | cons d r3 =>
            rw [dropWhile_append_of_ne_nil tail (by rw [hdw]; simp), hdw]
            rw [hdw] at hhead
            simp only [decide_eq_true_eq] at hhead
            simp only [List.cons_append]
            rw [if_neg hhead, ih fuel tail htail]
      · rw [if_neg hc, ih fuel tail htail]
        simp

/-- The repair pass on an empty input, at any fuel. -/
theorem commaFix_nil (close : Char) (g : Nat) : commaFix close g [] = [] := by
  cases g <;> rfl

/-- The members of a rendered file object, without the surrounding braces. -/
def objBody (f : FileRec) : List Char :=
  jqStr "path" ++ ':' :: (jqStr f.path ++ ',' :: (jqStr "content" ++ ':' :: jqStr f.content))

/-- A rendered file object is its body in braces. -/
theorem objBody_render (f : FileRec) :
    jrender (fileJson f) = '{' :: (objBody f ++ ['}']) := by
  have h := jrender_fileJson f []
  rw [List.append_nil] at h
  rw [h, objBody]
  simp

/-- A file object rendered with a trailing comma before its closing brace. -/
def objT (f : FileRec) : List Char :=
  '{' :: (objBody f ++ [',', '}'])

/-- A file list rendered with trailing commas: one inside every object and
one after every object, the last thus sitting right before the closing
bracket. -/
def itemsT : List FileRec → List Char
  | [] => []
  | f :: fs => objT f ++ ',' :: itemsT fs

/-- The item list after the first repair pass: objects are clean again, but
every object is still followed by a comma. -/
def itemsA : List FileRec → List Char
  | [] => []
  | f :: fs => jrender (fileJson f) ++ ',' :: itemsA fs

/-- The serialization of a file list with trailing commas throughout. -/
def serializeFilesT (files : List FileRec) : String :=
  String.mk ('[' :: (itemsT files ++ [']']))

/-- An open file object (no closing brace) is a clean segment. -/
theorem cleanSeg_objBody {close : Char} (hq : ('"' : Char) ≠ close) (f : FileRec)
    (hp : cleanSeg close (jqStr f.path) = true)
    (hc : cleanSeg close (jqStr f.content) = true) :
    cleanSeg close ('{' :: objBody f) = true := by
  rw [objBody, cleanSeg_cons_of_ne (by decide)]
  refine cleanSeg_append close _ _ ?_ ?_
  · exact cleanSeg_of_no_comma close _ (by decide)
  · rw [cleanSeg_cons_of_ne (by decide)]
    refine cleanSeg_append close _ _ hp ?_
    rw [cleanSeg_comma_qStr hq]
    refine cleanSeg_append close _ _ ?_ ?_
    · exact cleanSeg_of_no_comma close _ (by decide)
    · rw [cleanSeg_cons_of_ne (by decide)]
      exact hc

/-- The first repair pass deletes exactly the trailing commas inside the
objects of a trailing-comma item list. -/
theorem commaFix_itemsT :
    ∀ (files : List FileRec),
      (∀ f ∈ files, cleanSeg '\x7d' (jqStr f.path) = true ∧
        cleanSeg '\x7d' (jqStr f.content) = true) →
      ∀ (g : Nat),
        commaFix '\x7d' ((itemsT files ++ [']']).length + (g + 1)) (itemsT files ++ [']'])
          = itemsA files ++ [']'] := by
  intro files
  induction files with
  | nil =>
      intro _ g
      rw [commaFix_ge '\x7d' _ _ 1 (by simp [itemsT]) (by simp [itemsT])]
      rfl
  | cons f fs ih =>
      intro h g
      have hf := h f (by simp)
      have hshape : itemsT (f :: fs) ++ [']']
          = ('\x7b' :: objBody f) ++ (',' :: '\x7d' :: (',' :: (itemsT fs ++ [']']))) := by
        rw [itemsT, objT]
        simp
      rw [hshape]
      rw [commaFix_ge '\x7d' _ _
        (('\x7b' :: objBody f).length + ((((itemsT fs ++ [']']).length + (g + 1)) + 1) + 1))
        (by omega) (by simp [List.length_append]; omega)]
      rw [commaFix_seg '\x7d' _ _ _ (cleanSeg_objBody (by decide) f hf.1 hf.2)]
      rw [commaFix_step '\x7d' _ _ (by decide)]
      have hsafe : ∃ dh dtl, itemsT fs ++ [']'] = dh :: dtl ∧
          jsWs dh = false ∧ dh ≠ '\x7d' := by
        cases fs with
        | nil => exact ⟨']', [], rfl, by decide, by decide⟩
        | cons a b =>
            refine ⟨'\x7b', (objBody a ++ [',', '\x7d']) ++ ((',' :: itemsT b) ++ [']']),
              ?_, by decide, by decide⟩
            rw [itemsT, objT]
            simp
      obtain ⟨dh, dtl, hdh, hw, hne⟩ := hsafe
      rw [hdh, commaFix_comma_safe '\x7d' _ dh dtl hw hne, ← hdh,
        ih (fun x hx => h x (by simp [hx])) g]
      rw [itemsA, objBody_render]
      simp

/-- The second repair pass deletes the commas left after the objects,
recovering the clean rendering. -/
theorem commaFix_itemsA :
    ∀ (files : List FileRec),
      (∀ f ∈ files, cleanSeg ']' (jqStr f.path) = true ∧
        cleanSeg ']' (jqStr f.content) = true) →
      ∀ (g : Nat),
        commaFix ']' ((itemsA files ++ [']']).length + (g + 1)) (itemsA files ++ [']'])
          = jrItems (files.map fileJson) ++ [']'] := by
  intro files
  induction files with
  | nil =>
      intro _ g
      rw [commaFix_ge ']' _ _ 1 (by simp [itemsA]) (by simp [itemsA])]
      rfl
  | cons f fs ih =>
      intro h g
      have hf := h f (by simp)
      have hshape : itemsA (f :: fs) ++ [']']
          = jrender (fileJson f) ++ (',' :: (itemsA fs ++ [']'])) := by
        rw [itemsA]
        simp
      rw [hshape]
      rw [commaFix_ge ']' _ _
        ((jrender (fileJson f)).length + (((itemsA fs ++ [']']).length + (g + 1)) + 1))
        (by omega) (by simp [List.length_append]; try omega)]
      rw [commaFix_seg ']' _ _ _ (cleanSeg_fileObj (by decide) f hf.1 hf.2)]
      cases fs with
      | nil =>
          rw [show (',' : Char) :: (itemsA [] ++ [']']) = ',' :: ']' :: [] from rfl]
          rw [show ((itemsA ([] : List FileRec) ++ [']']).length + (g + 1)) + 1
              = ((g + 1) + 1) + 1 from by simp [itemsA]; try omega]
          rw [commaFix_step ']' _ _ (by decide), commaFix_nil]
          rw [show jrItems (([f] : List FileRec).map fileJson) = jrender (fileJson f) from by
            simp [jrItems]]
      | cons a b =>
          have hdh : itemsA (a :: b) ++ [']']
              = '\x7b' :: ((objBody a ++ ['\x7d']) ++ ((',' :: itemsA b) ++ [']'])) := by
            rw [itemsA, objBody_render]
            simp
          rw [hdh, commaFix_comma_safe ']' _ '\x7b' _ (by decide) (by decide), ← hdh,
            ih (fun x hx => h x (by simp [hx])) g]
          rw [show jrItems (((f :: a :: b) : List FileRec).map fileJson)
              = jrender (fileJson f) ++ ',' :: jrItems ((a :: b).map fileJson) from by
            simp [jrItems]]
          simp

/-- The repaired item list is never longer than the trailing-comma one. -/
theorem itemsA_le_itemsT : ∀ files : List FileRec,
    (itemsA files).length ≤ (itemsT files).length := by
  intro files
  induction files with
  | nil => exact Nat.le_refl _
  | cons f fs ih =>
      rw [itemsA, itemsT]
      simp [objT, objBody_render, List.length_append]
      omega

/-- The repair pass turns the trailing-comma serialization of a clean file
list into its clean serialization. -/
theorem repair_trailing (files : List FileRec)
    (h : ∀ f ∈ files, strOk f.path = true ∧ strOk f.content = true) :
    repair ('[' :: (itemsT files ++ [']'])) = jrender (.arr (files.map fileJson)) := by
  have hA : ∀ f ∈ files, cleanSeg '\x7d' (jqStr f.path) = true ∧
      cleanSeg '\x7d' (jqStr f.content) = true := by
    intro f hf
    have hx := h f hf
    simp only [strOk, Bool.and_eq_true] at hx
    exact ⟨hx.1.1, hx.2.1⟩
  have hB : ∀ f ∈ files, cleanSeg ']' (jqStr f.path) = true ∧
      cleanSeg ']' (jqStr f.content) = true := by
    intro f hf
    have hx := h f hf
    simp only [strOk, Bool.and_eq_true] at hx
    exact ⟨hx.1.2, hx.2.2⟩
  rw [repair]
  rw [show ('[' :: (itemsT files ++ [']'])).length + 1
      = ((itemsT files ++ [']']).length + (0 + 1)) + 1 from by simp]
  rw [commaFix_skip '\x7d' _ '[' _ (by decide)]
  rw [commaFix_itemsT files hA 0]
  rw [commaFix_skip ']' _ '[' _ (by decide)]
  rw [commaFix_ge ']' _ _ ((itemsA files ++ [']']).length + (0 + 1))
    (by simp [List.length_append]; have := itemsA_le_itemsT files; omega)
    (by omega)]
  rw [commaFix_itemsA files hB 0]
  rfl

/-- Strategy 1 recovers a clean file list from its trailing-comma
serialization: the repair pass removes exactly the inserted commas. -/
theorem strat1_trailing (files : List FileRec)
    (h : ∀ f ∈ files, strOk f.path = true ∧ strOk f.content = true) :
    strat1 ('[' :: (itemsT files ++ [']'])) = some (files.map fileJson) := by
  have htrim : jsTrim ('[' :: (itemsT files ++ [']'])) = '[' :: (itemsT files ++ [']']) :=
    jsTrim_ends (by decide) (by decide) _
  simp only [strat1, htrim]
  rw [repair_trailing files h, jparseL_files files]
  simp

/-- C8, amended.  Strategies 1-3 tolerate trailing commas before `\x7d`/`]`
outside string literals (the repair pass deletes them): strategy 1 recovers
every clean file list from its serialization with trailing commas inserted
throughout, and the fenced-block strategy (scenario C) and the bracket-scan
strategy recover concrete candidates carrying trailing commas.  Strategy
4's per-object salvage does not tolerate them: it requires the closing
brace to follow the content string's final quote with only whitespace in
between. -/
theorem c8_trailing_commas (files : List FileRec)
    (h : ∀ f ∈ files, strOk f.path = true ∧ strOk f.content = true) :
    extractJSON (serializeFilesT files) = files.map fileJson ∧
    extractJSON "some explanation ```json\n[\x7b\"path\":\"a.ts\",\"content\":\"x\",\x7d]\n``` more text"
      = [fileJson ⟨"a.ts", "x"⟩] ∧
    extractJSON "xx [\x7b\"path\":\"a\",\"content\":\"x\",\x7d,]" = [fileJson ⟨"a", "x"⟩] := by
  refine ⟨?_, rfl, rfl⟩
  have h1 := strat1_trailing files h
  simp only [extractJSON]
  rw [show (serializeFilesT files).toList = '[' :: (itemsT files ++ [']']) from rfl]
  rw [h1]

/-- Witness for C8: a concrete clean file list round-trips through the
trailing-comma serialization. -/
theorem c8_trailing_commas_witness :
    extractJSON (serializeFilesT [⟨"w.ts", "let y = 2;"⟩])
      = ([⟨"w.ts", "let y = 2;"⟩] : List FileRec).map fileJson ∧
    extractJSON "some explanation ```json\n[\x7b\"path\":\"a.ts\",\"content\":\"x\",\x7d]\n``` more text"
      = [fileJson ⟨"a.ts", "x"⟩] ∧
    extractJSON "xx [\x7b\"path\":\"a\",\"content\":\"x\",\x7d,]" = [fileJson ⟨"a", "x"⟩] :=
  c8_trailing_commas [⟨"w.ts", "let y = 2;"⟩] (by decide)

/-- Counterexample to C8 as stated: strategy 4 recovers this lone file
object, but a trailing comma between the content string and the closing
brace makes the same salvage fail, so the extractor returns nothing. -/
theorem c8_counterexample :
    extractJSON "xx \x7b\"path\":\"a\",\"content\":\"x\"\x7d" = [fileJson ⟨"a", "x"⟩] ∧
    extractJSON "xx \x7b\"path\":\"a\",\"content\":\"x\",\x7d" = [] :=
  ⟨rfl, rfl⟩

/-! ## The streaming decoder (C3)

The patched streaming body processes each SSE line: a `data: ` prefix is
required, the payload is trimmed, `[DONE]` is skipped, the payload is
parsed as JSON, and `parsed.choices?.[0]?.delta` supplies up to three
string fields.  `content` and `reasoning_content` are appended to their
accumulators when truthy; `reasoning` is appended to the reasoning
accumulator only when truthy and `reasoning_content` is falsy.  At the end
`fullContent || reasoningContent` is returned, and an empty result throws
`Empty response`.  The model works on whole lines (each event arriving as
one complete line of a decoded chunk). -/

/-- A stream delta event: the three optional string fields of
`choices[0].delta` that the decoder reads. -/
structure DeltaEv where
  content : Option String
  reasoning_content : Option String
  reasoning : Option String
deriving Inhabited

/-- The `delta` members present on an event, in emission order. -/
def strFieldsS (e : DeltaEv) : List (String × String) :=
  (match e.content with | some s => [("content", s)] | none => []) ++
  (match e.reasoning_content with | some s => [("reasoning_content", s)] | none => []) ++
  (match e.reasoning with | some s => [("reasoning", s)] | none => [])

/-- The JSON value of one stream event, shaped as the API emits it. -/
def deltaJson (e : DeltaEv) : Json :=
  .obj [("choices", .arr [.obj [("delta",
    .obj ((strFieldsS e).map fun p => (p.1, Json.str p.2)))]])]

/-- One serialized SSE line of an event. -/
def eventLine (e : DeltaEv) : List Char :=
  'd' :: 'a' :: 't' :: 'a' :: ':' :: ' ' :: jrender (deltaJson e)

/-- The terminating SSE line. -/
def doneLine : List Char :=
  'd' :: 'a' :: 't' :: 'a' :: ':' :: ' ' :: '[' :: 'D' :: 'O' :: 'N' :: 'E' :: ']' :: []

/-- `parsed.choices?.[0]?.delta`: `none` is JavaScript `undefined` (or a
`TypeError`-free miss along the optional chain). -/
def getDelta (v : Json) : Option Json :=
  match v with
  | .obj ms =>
      match jfield ms "choices" with
      | some (.arr (c0 :: _)) =>
          match c0 with
          | .obj cms => jfield cms "delta"
          | _ => none
      | _ => none
  | _ => none

/-- A field of the delta object, `none` when the delta is not an object. -/
def jfieldOf (d : Json) (k : String) : Option Json :=
  match d with
  | .obj ms => jfield ms k
  | _ => none

/-- Truthiness of `delta?.k`. -/
def deltaTruthy (d : Json) (k : String) : Bool :=
  match jfieldOf d k with
  | some v => jtruthy v
  | none => false

/-- What `+=` appends for a (string-valued) field; absent fields and
non-string values contribute nothing along the guarded paths the decoder
takes. -/
def strContrib (o : Option Json) : String :=
  match o with
  | some (.str s) => s
  | _ => ""

/-- The three guarded appends of the loop body, on the accumulator pair
(fullContent, reasoningContent). -/
def stepDelta (acc : String × String) (d : Json) : String × String :=
  let acc1 : String × String :=
    if deltaTruthy d "content" then (acc.1 ++ strContrib (jfieldOf d "content"), acc.2)
    else acc
  let acc2 : String × String :=
    if deltaTruthy d "reasoning_content"
    then (acc1.1, acc1.2 ++ strContrib (jfieldOf d "reasoning_content"))
    else acc1
  if deltaTruthy d "reasoning" && !deltaTruthy d "reasoning_content"
  then (acc2.1, acc2.2 ++ strContrib (jfieldOf d "reasoning"))
  else acc2

/-- Processing of one SSE line. -/
def procLine (acc : String × String) (line : List Char) : String × String :=
  if isPre ('d' :: 'a' :: 't' :: 'a' :: ':' :: ' ' :: []) line then
    let payload := jsTrim (line.drop 6)
    if payload = '[' :: 'D' :: 'O' :: 'N' :: 'E' :: ']' :: [] then acc
    else
      match jparseL payload with
      | some v =>
          match getDelta v with
          | some d => stepDelta acc d
          | none => acc
      | none => acc
  else acc

/-- The decoder: fold the lines, then `fullContent || reasoningContent`,
then the emptiness check. -/
def decodeStream (lines : List (List Char)) : Except String String :=
  let r := lines.foldl procLine ("", "")
  let fin := if r.1 = "" then r.2 else r.1
  if fin = "" then .error "Empty response" else .ok fin

/-- The in-order concatenation of the content payloads. -/
def contentConcat : List DeltaEv → String
  | [] => ""
  | e :: es => (e.content.getD "") ++ contentConcat es

/-- The reasoning payload of one event: `reasoning_content` when truthy,
else `reasoning` (if any). -/
def reasoningPayload (e : DeltaEv) : String :=
  match e.reasoning_content with
  | some s => if s = "" then (e.reasoning.getD "") else s
  | none => e.reasoning.getD ""

/-- The in-order concatenation of the reasoning payloads. -/
def reasoningConcat : List DeltaEv → String
  | [] => ""
  | e :: es => reasoningPayload e ++ reasoningConcat es

/-- `jpPairs` on a rendered nonempty list of string-valued members. -/
theorem jpPairs_strs :
    ∀ (ps : List (String × String)) (k v : String) (f : Nat) (rest : List Char),
      jpPairs (ps.length + f + 2)
          (jrPairs (((k, v) :: ps).map (fun p => (p.1, Json.str p.2))) ++ '\x7d' :: rest)
        = some (((k, v) :: ps).map (fun p => (p.1, Json.str p.2)), rest) := by
  intro ps
  induction ps with
  | nil =>
      intro k v f rest
      simp only [List.map_cons, List.map_nil, List.length_nil]
      rw [show jrPairs [(k, Json.str v)] ++ '\x7d' :: rest
          = jqStr k ++ ':' :: (jqStr v ++ '\x7d' :: rest) from by simp [jrPairs, jrender]]
      rw [show (0 : Nat) + f + 2 = f + 2 from by omega]
      exact jpPairs_one f k v rest
  | cons p2 ps2 ih =>
      intro k v f rest
      obtain ⟨k2, v2⟩ := p2
      simp only [List.map_cons, List.length_cons]
      have key : ∀ G, G = ps2.length + f + 2 →
          jpPairs (G + 1)
              (jrPairs ((k, Json.str v) :: (k2, Json.str v2) ::
                  ps2.map (fun p => (p.1, Json.str p.2))) ++ '\x7d' :: rest)
            = some ((k, Json.str v) :: (k2, Json.str v2) ::
                ps2.map (fun p => (p.1, Json.str p.2)), rest) := by
        intro G hG
        rw [show jrPairs ((k, Json.str v) :: (k2, Json.str v2) ::
                ps2.map (fun p => (p.1, Json.str p.2))) ++ '\x7d' :: rest
            = jqStr k ++ ':' :: (jqStr v ++ ',' ::
                (jrPairs ((k2, Json.str v2) :: ps2.map (fun p => (p.1, Json.str p.2)))
                  ++ '\x7d' :: rest)) from by
          simp [jrPairs, jrender]]
        rw [jqStr_cons]
        simp only [jpPairs]
        rw [dropWhile_cons_of_neg (by decide)]
        simp only [if_pos rfl, jpStrBody_qStr]
        rw [dropWhile_cons_of_neg (by decide)]
        simp only [List.head?_cons, Option.some.injEq, if_pos rfl, List.tail_cons]
        subst hG
        rw [show ps2.length + f + 2 = (ps2.length + f + 1) + 1 from by omega, jpVal_qStr]
        simp only []
        rw [dropWhile_cons_of_neg (by decide)]
        simp only [List.head?_cons, Option.some.injEq, Char.reduceEq, reduceIte,
          List.tail_cons]
        rw [show (ps2.length + f + 1) + 1 = ps2.length + f + 2 from by omega]
        have ih2 := ih k2 v2 f rest
        simp only [List.map_cons] at ih2
        rw [ih2]
      rw [show ps2.length + 1 + f + 2 = (ps2.length + f + 2) + 1 from by omega]
      exact key _ rfl

/-- `jpVal` on a rendered object all of whose values are strings. -/
theorem jpVal_strObj :
    ∀ (ps : List (String × String)) (f : Nat) (rest : List Char),
      jpVal (ps.length + f + 3)
          (jrender (Json.obj (ps.map fun p => (p.1, Json.str p.2))) ++ rest)
        = some (Json.obj (ps.map fun p => (p.1, Json.str p.2)), rest) := by
  intro ps f rest
  match ps with
  | [] =>
      rw [show ([] : List (String × String)).length + f + 3 = (f + 2) + 1 from by simp]
      simp only [List.map_nil, jrender, jrPairs, jpVal]
      rw [show ('\x7b' :: ([] ++ ['\x7d']) ++ rest) = '\x7b' :: ('\x7d' :: rest) from by simp]
      rw [dropWhile_cons_of_neg (by decide)]
      simp only [Char.reduceEq, reduceIte]
      rw [dropWhile_cons_of_neg (by decide)]
      simp only [List.head?_cons, Option.some.injEq, Char.reduceEq, reduceIte,
        List.tail_cons]
  | (k, v) :: ps2 =>
      rw [show ((k, v) :: ps2).length + f + 3 = (ps2.length + (f + 1) + 2) + 1 from by
        simp only [List.length_cons]; omega]
      simp only [List.map_cons]
      rw [show jrender (Json.obj ((k, Json.str v) :: ps2.map fun p => (p.1, Json.str p.2))) ++ rest
          = '\x7b' :: (jrPairs ((k, Json.str v) :: ps2.map fun p => (p.1, Json.str p.2))
              ++ '\x7d' :: rest) from by
        simp [jrender]]
      simp only [jpVal]
      rw [dropWhile_cons_of_neg (by decide)]
      simp only [Char.reduceEq, reduceIte]
      have hsplit : ∃ y, jrPairs ((k, Json.str v) :: ps2.map fun p => (p.1, Json.str p.2))
          = jqStr k ++ y := by
        cases hmap : ps2.map (fun p => (p.1, Json.str p.2)) with
        | nil => exact ⟨':' :: jrender (Json.str v), by simp [jrPairs]⟩
        | cons q qs => exact ⟨':' :: jrender (Json.str v) ++ ',' :: jrPairs (q :: qs),
            by simp [jrPairs]⟩
      obtain ⟨y, hy⟩ := hsplit
      rw [hy, List.append_assoc, jqStr_cons]
      rw [dropWhile_cons_of_neg (by decide)]
      simp only [List.head?_cons, Option.some.injEq, Char.reduceEq, reduceIte]
      rw [← jqStr_cons, ← List.append_assoc, ← hy]
      have hps := jpPairs_strs ps2 k v (f + 1) rest
      simp only [List.map_cons] at hps
      rw [hps]

/-- `jpPairs` on one member whose value parse is given. -/
theorem jpPairs_one_val (f : Nat) (k : String) (v : Json) (rest : List Char)
    (hv : jpVal f (jrender v ++ '\x7d' :: rest) = some (v, '\x7d' :: rest)) :
    jpPairs (f + 1) ((jqStr k ++ ':' :: jrender v) ++ '\x7d' :: rest)
      = some ([(k, v)], rest) := by
  rw [show (jqStr k ++ ':' :: jrender v) ++ '\x7d' :: rest
      = jqStr k ++ ':' :: (jrender v ++ '\x7d' :: rest) from by simp]
  rw [jqStr_cons]
  simp only [jpPairs]
  rw [dropWhile_cons_of_neg (by decide)]
  simp only [if_pos rfl, jpStrBody_qStr]
  rw [dropWhile_cons_of_neg (by decide)]
  simp only [List.head?_cons, Option.some.injEq, if_pos rfl, List.tail_cons]
  rw [hv]
  simp only []
  rw [dropWhile_cons_of_neg (by decide)]
  simp

/-- `jpVal` on a one-member object whose value parse is given. -/
theorem jpVal_obj_one_val (f : Nat) (k : String) (v : Json) (rest : List Char)
    (hv : jpVal f (jrender v ++ '\x7d' :: rest) = some (v, '\x7d' :: rest)) :
    jpVal (f + 2) (jrender (Json.obj [(k, v)]) ++ rest) = some (Json.obj [(k, v)], rest) := by
  rw [show jrender (Json.obj [(k, v)]) ++ rest
      = '\x7b' :: ((jqStr k ++ ':' :: jrender v) ++ '\x7d' :: rest) from by
    simp [jrender, jrPairs]]
  simp only [jpVal]
  rw [dropWhile_cons_of_neg (by decide)]
  simp only [Char.reduceEq, reduceIte]
  rw [show (jqStr k ++ ':' :: jrender v) ++ '\x7d' :: rest
      = jqStr k ++ ':' :: (jrender v ++ '\x7d' :: rest) from by simp]
  rw [jqStr_cons]
  rw [dropWhile_cons_of_neg (by decide)]
  simp only [List.head?_cons, Option.some.injEq, Char.reduceEq, reduceIte]
  rw [← jqStr_cons]
  rw [show jqStr k ++ ':' :: (jrender v ++ '\x7d' :: rest)
      = (jqStr k ++ ':' :: jrender v) ++ '\x7d' :: rest from by simp]
  rw [jpPairs_one_val f k v rest hv]

/-- `jpVal` on a one-element array whose element parse is given and whose
element renders as an object. -/
theorem jpVal_arr_one_val (f : Nat) (v : Json) (rest z : List Char)
    (hz : jrender v = '\x7b' :: z)
    (hv : jpVal f (jrender v ++ ']' :: rest) = some (v, ']' :: rest)) :
    jpVal (f + 2) (jrender (Json.arr [v]) ++ rest) = some (Json.arr [v], rest) := by
  rw [show jrender (Json.arr [v]) ++ rest = '[' :: (jrender v ++ ']' :: rest) from by
    simp [jrender, jrItems]]
  simp only [jpVal]
  rw [dropWhile_cons_of_neg (by decide)]
  simp only [Char.reduceEq, reduceIte]
  rw [hz]
  simp only [List.cons_append]
  rw [dropWhile_cons_of_neg (by decide)]
  simp only [List.head?_cons, Option.some.injEq, Char.reduceEq, reduceIte]
  rw [← List.cons_append, ← hz]
  simp only [jpItems]
  rw [hv]
  simp only []
  rw [dropWhile_cons_of_neg (by decide)]
  simp only [List.head?_cons, Option.some.injEq, Char.reduceEq, reduceIte,
    List.tail_cons]

/-- Rendered objects are at least as long as their member count. -/
theorem jrPairs_len : ∀ ms : List (String × Json), ms.length ≤ (jrPairs ms).length := by
  intro ms
  induction ms with
  | nil => simp [jrPairs]
  | cons p ms2 ih =>
      obtain ⟨k, v⟩ := p
      cases ms2 with
      | nil =>
          have := jqStr_len k
          simp only [jrPairs, List.length_append, List.length_cons, List.length_nil]
          omega
      | cons q qs =>
          have := jqStr_len k
          rw [show jrPairs ((k, v) :: q :: qs)
              = jqStr k ++ ':' :: jrender v ++ ',' :: jrPairs (q :: qs) from by
            simp [jrPairs]]
          simp only [List.length_append, List.length_cons] at ih ⊢
          omega

/-- The rendered event is long enough for the parser fuel. -/
theorem delta_render_len (e : DeltaEv) :
    (strFieldsS e).length + 8 ≤ (jrender (deltaJson e)).length := by
  have hF : (strFieldsS e).length
      ≤ (jrender (Json.obj ((strFieldsS e).map fun p => (p.1, Json.str p.2)))).length := by
    have h1 := jrPairs_len ((strFieldsS e).map fun p => (p.1, Json.str p.2))
    rw [show jrender (Json.obj ((strFieldsS e).map fun p => (p.1, Json.str p.2)))
        = '\x7b' :: (jrPairs ((strFieldsS e).map fun p => (p.1, Json.str p.2))
            ++ ['\x7d']) from by simp [jrender]]
    simp only [List.length_cons, List.length_append, List.length_map] at h1 ⊢
    omega
  rw [show jrender (deltaJson e)
      = '\x7b' :: ((jqStr "choices" ++ ':' :: ('[' :: (('\x7b' :: ((jqStr "delta" ++ ':' ::
          jrender (Json.obj ((strFieldsS e).map fun p => (p.1, Json.str p.2))))
            ++ ['\x7d'])) ++ [']']))) ++ ['\x7d']) from by
    simp [deltaJson, jrender, jrPairs, jrItems]]
  have h1 := jqStr_len "choices"
  have h2 := jqStr_len "delta"
  simp only [List.length_cons, List.length_append]
  omega

/-- `jpVal` on a rendered stream event. -/
theorem jpVal_deltaJson (e : DeltaEv) (f : Nat) (rest : List Char) :
    jpVal ((strFieldsS e).length + f + 9) (jrender (deltaJson e) ++ rest)
      = some (deltaJson e, rest) := by
  have h0 : ∀ r0 : List Char, jpVal ((strFieldsS e).length + f + 3)
      (jrender (Json.obj ((strFieldsS e).map fun p => (p.1, Json.str p.2))) ++ r0)
      = some (Json.obj ((strFieldsS e).map fun p => (p.1, Json.str p.2)), r0) :=
    fun r0 => jpVal_strObj (strFieldsS e) f r0
  have h1 : ∀ r1 : List Char, jpVal ((strFieldsS e).length + f + 5)
      (jrender (Json.obj [("delta",
          Json.obj ((strFieldsS e).map fun p => (p.1, Json.str p.2)))]) ++ r1)
      = some (Json.obj [("delta",
          Json.obj ((strFieldsS e).map fun p => (p.1, Json.str p.2)))], r1) :=
    fun r1 => jpVal_obj_one_val ((strFieldsS e).length + f + 3) "delta" _ r1
      (h0 ('\x7d' :: r1))
  have h2 : ∀ r2 : List Char, jpVal ((strFieldsS e).length + f + 7)
      (jrender (Json.arr [Json.obj [("delta",
          Json.obj ((strFieldsS e).map fun p => (p.1, Json.str p.2)))]]) ++ r2)
      = some (Json.arr [Json.obj [("delta",
          Json.obj ((strFieldsS e).map fun p => (p.1, Json.str p.2)))]], r2) :=
    fun r2 => jpVal_arr_one_val ((strFieldsS e).length + f + 5) _ r2
      (jrPairs [("delta", Json.obj ((strFieldsS e).map fun p => (p.1, Json.str p.2)))]
        ++ ['\x7d'])
      (by simp [jrender]) (h1 (']' :: r2))
  exact jpVal_obj_one_val ((strFieldsS e).length + f + 7) "choices" _ rest
    (h2 ('\x7d' :: rest))

/-- `JSON.parse` undoes `JSON.stringify` on a stream event. -/
theorem jparse_deltaJson (e : DeltaEv) :
    jparseL (jrender (deltaJson e)) = some (deltaJson e) := by
  rw [jparseL]
  have hlen := delta_render_len e
  rw [show (jrender (deltaJson e)).length + 1
      = (strFieldsS e).length
        + ((jrender (deltaJson e)).length + 1 - (strFieldsS e).length - 9) + 9 from by
    omega]
  have h := jpVal_deltaJson e
    ((jrender (deltaJson e)).length + 1 - (strFieldsS e).length - 9) []
  rw [List.append_nil] at h
  rw [h]
  simp

/-- A pattern is a prefix of itself followed by anything. -/
theorem isPre_self_append : ∀ (pat x : List Char), isPre pat (pat ++ x) = true := by
  intro pat
  induction pat with
  | nil => intro x; rfl
  | cons p ps ih =>
      intro x
      simp [isPre, ih x]

/-- Processing one serialized event line runs the three guarded appends on
its delta object. -/
theorem procLine_event (acc : String × String) (e : DeltaEv) :
    procLine acc (eventLine e)
      = stepDelta acc (Json.obj ((strFieldsS e).map fun p => (p.1, Json.str p.2))) := by
  obtain ⟨y, hy⟩ : ∃ y, jrender (deltaJson e) = '\x7b' :: (y ++ ['\x7d']) :=
    ⟨jqStr "choices" ++ ':' :: jrender (Json.arr [Json.obj [("delta",
        Json.obj ((strFieldsS e).map fun p => (p.1, Json.str p.2)))]]),
      by simp [deltaJson, jrender, jrPairs]⟩
  rw [show eventLine e
      = ('d' :: 'a' :: 't' :: 'a' :: ':' :: ' ' :: []) ++ jrender (deltaJson e) from by
    simp [eventLine]]
  rw [procLine, if_pos (isPre_self_append _ _)]
  rw [show (('d' :: 'a' :: 't' :: 'a' :: ':' :: ' ' :: []) ++ jrender (deltaJson e)).drop 6
      = jrender (deltaJson e) from by simp]
  rw [hy, jsTrim_ends (by decide) (by decide), ← hy]
  rw [if_neg (by rw [hy]; simp)]
  rw [jparse_deltaJson e]
  simp only []
  rw [show getDelta (deltaJson e)
      = some (Json.obj ((strFieldsS e).map fun p => (p.1, Json.str p.2))) from rfl]

/-- The loop body on an event appends the content payload to the first
accumulator and the reasoning payload to the second. -/
theorem stepDelta_spec (acc : String × String) (e : DeltaEv) :
    stepDelta acc (Json.obj ((strFieldsS e).map fun p => (p.1, Json.str p.2)))
      = (acc.1 ++ e.content.getD "", acc.2 ++ reasoningPayload e) := by
  rcases e with ⟨c, rc, rs⟩
  rcases c with _ | c <;> rcases rc with _ | rc <;> rcases rs with _ | rs <;>
    simp +decide [stepDelta, deltaTruthy, jfieldOf, jfield, strContrib, jtruthy,
      strFieldsS, reasoningPayload, Option.getD] <;>
    first
      | rfl
      | (intro h; subst h; simp [String.append_empty])
      | (split_ifs <;> simp_all [String.append_empty])
      | simp_all [String.append_empty]

/-- The fold over the serialized events accumulates both concatenations. -/
theorem foldl_eventLines :
    ∀ (events : List DeltaEv) (acc : String × String),
      (events.map eventLine).foldl procLine acc
        = (acc.1 ++ contentConcat events, acc.2 ++ reasoningConcat events) := by
  intro events
  induction events with
  | nil =>
      intro acc
      simp [contentConcat, reasoningConcat]
  | cons e es ih =>
      intro acc
      simp only [List.map_cons, List.foldl_cons]
      rw [procLine_event, stepDelta_spec, ih]
      simp [contentConcat, reasoningConcat, String.append_assoc]

/-- C3.  For every sequence of stream delta events, decoding the serialized
stream returns the in-order concatenation of the content payloads if that
is non-empty, otherwise the in-order concatenation of the reasoning
payloads (reasoning_content, falling back to reasoning per delta); it fails
with the empty-response error exactly when both concatenations are empty.
The terminating `data: [DONE]` line is skipped. -/
theorem c3_stream_concat (events : List DeltaEv) :
    decodeStream (events.map eventLine ++ [doneLine])
      = (if contentConcat events = "" then
           if reasoningConcat events = "" then Except.error "Empty response"
           else Except.ok (reasoningConcat events)
         else Except.ok (contentConcat events)) := by
  simp only [decodeStream, List.foldl_append]
  rw [foldl_eventLines events ("", "")]
  rw [show List.foldl procLine ("" ++ contentConcat events, "" ++ reasoningConcat events)
        [doneLine] = ("" ++ contentConcat events, "" ++ reasoningConcat events) from rfl]
  by_cases h1 : contentConcat events = "" <;> by_cases h2 : reasoningConcat events = "" <;>
    simp [h1, h2, String.empty_append]

/-! ## The dependency reconcilers (C4, C5) and the build verifier (C7)

Two implementations scan sources for package imports: the TypeScript
`autoDetectAndInstallMissingPackages` (per line, `from`/`require` regexes)
and the Python `scan_imports` (whole file, one `from` regex).  Both reduce
a specifier to a base package name and reconcile it against the manifest.
`verifyBuildLocally` scans build output for two error shapes. -/

/-- `content.split("\n")`. -/
def splitLines : Nat → List Char → List (List Char)
  | 0, l => [l]
  | fuel + 1, l =>
      let seg := l.takeWhile (· ≠ '\n')
      match l.drop seg.length with
      | _ :: rest => seg :: splitLines fuel rest
      | [] => [seg]

/-- The head character class `[@a-zA-Z]` of both import regexes. -/
def pkgHead (c : Char) : Bool :=
  c = '@' || ('a' ≤ c && c ≤ 'z') || ('A' ≤ c && c ≤ 'Z')

/-- A quote of the `['"]` class. -/
def isQuote (c : Char) : Bool := c = '\x27' || c = '"'

/-- The pattern `from\s+['"]([@a-zA-Z][^'"]*)['"]` anchored here. -/
def matchFromAt (l : List Char) : Option (List Char) :=
  match l with
  | 'f' :: 'r' :: 'o' :: 'm' :: r =>
      let (n, r1) := wsSplit r
      if n = 0 then none
      else match r1 with
        | q :: c0 :: r3 =>
            if isQuote q && pkgHead c0 then
              let more := r3.takeWhile (fun c => !isQuote c)
              match r3.drop more.length with
              | q2 :: _ => if isQuote q2 then some (c0 :: more) else none
              | [] => none
            else none
        | _ => none
  | _ => none

/-- The pattern `require\s*\(\s*['"]([@a-zA-Z][^'"]*)['"]` anchored here. -/
def matchRequireAt (l : List Char) : Option (List Char) :=
  match l with
  | 'r' :: 'e' :: 'q' :: 'u' :: 'i' :: 'r' :: 'e' :: r =>
      let (_, r1) := wsSplit r
      match r1 with
      | '(' :: r2 =>
          let (_, r3) := wsSplit r2
          match r3 with
          | q :: c0 :: r4 =>
              if isQuote q && pkgHead c0 then
                let more := r4.takeWhile (fun c => !isQuote c)
                match r4.drop more.length with
                | q2 :: _ => if isQuote q2 then some (c0 :: more) else none
                | [] => none
              else none
          | _ => none
      | _ => none
  | _ => none

/-- `line.match(re)`: the leftmost match's capture. -/
def reFirst (matchAt : List Char → Option (List Char)) : Nat → List Char → Option (List Char)
  | 0, _ => none
  | fuel + 1, l =>
      match matchAt l with
      | some cap => some cap
      | none =>
          match l with
          | [] => none
          | _ :: cs => reFirst matchAt fuel cs

/-- `(fromMatch && fromMatch[1]) || (requireMatch && requireMatch[1])`. -/
def linePkg (l : List Char) : Option (List Char) :=
  match reFirst matchFromAt (l.length + 1) l with
  | some cap => some cap
  | none => reFirst matchRequireAt (l.length + 1) l

/-- `pkg.startsWith("@") ? pkg.split("/").slice(0, 2).join("/")
: pkg.split("/")[0]`. -/
def basePkgOf (p : List Char) : List Char :=
  match p with
  | '@' :: _ =>
      let first := p.takeWhile (· ≠ '/')
      if first.length = p.length then p
      else first ++ '/' :: (p.drop (first.length + 1)).takeWhile (· ≠ '/')
  | _ => p.takeWhile (· ≠ '/')

/-- The builtin list of the TypeScript scanner, verbatim. -/
def tsBuiltins : List String :=
  ["react", "react-dom", "next", "fs", "path", "util", "crypto", "stream",
   "http", "https", "url", "os", "child_process", "events", "buffer",
   "querystring", "assert", "tty", "net", "dns", "zlib", "process"]

/-- One line of the TypeScript scanner: the base package it records, if
any. -/
def tsLineBase (l : List Char) : Option String :=
  match linePkg l with
  | some p =>
      let b := basePkgOf p
      if !(tsBuiltins.contains (String.mk b)) && !isPre ['n', 'e', 'x', 't', '/'] b then
        some (String.mk b)
      else none
  | none => none

/-- `Set` insertion (JavaScript sets keep insertion order). -/
def insertOnce (acc : List String) (x : String) : List String :=
  if acc.contains x then acc else acc ++ [x]

/-- The TypeScript scanner over the source files (each given as its
character content; the scanner walks them in order and splits on
newlines). -/
def tsImported (files : List (List Char)) : List String :=
  files.foldl (fun acc f =>
    (splitLines (f.length + 1) f).foldl (fun a ln =>
      match tsLineBase ln with
      | some b => insertOnce a b
      | none => a) acc) []

/-- The manifest: `dependencies` and `devDependencies` as ordered key-value
lists (`JSON.parse` keeps source order; duplicate keys resolve last-wins
through `assocStr`). -/
structure Manifest where
  dependencies : List (String × String)
  devDependencies : List (String × String)
deriving Repr, DecidableEq, Inhabited

/-- Property lookup with later duplicates winning. -/
def assocStr : List (String × String) → String → Option String
  | [], _ => none
  | (k0, v0) :: rest, k =>
      match assocStr rest k with
      | some v => some v
      | none => if k0 = k then some v0 else none

/-- `!allDeps[pkgName]` negated, with `allDeps = {...deps, ...devDeps}`:
the devDependencies entry wins, and an empty version string is falsy. -/
def depTruthy (m : Manifest) (k : String) : Bool :=
  match assocStr m.devDependencies k with
  | some v => v ≠ ""
  | none =>
      match assocStr m.dependencies k with
      | some v => v ≠ ""
      | none => false

/-- Key presence in either section (the Python reconciler's check). -/
def hasKey (m : Manifest) (k : String) : Bool :=
  (m.dependencies.map Prod.fst).contains k || (m.devDependencies.map Prod.fst).contains k

/-- JavaScript object assignment `deps[k] = v`: overwrite in place or
append. -/
def setDep (deps : List (String × String)) (k v : String) : List (String × String) :=
  if (deps.map Prod.fst).contains k then
    deps.map (fun p => if p.1 = k then (k, v) else p)
  else deps ++ [(k, v)]

/-- `KNOWN_GOOD_VERSIONS` as patched into the daemon. -/
def knownGoodVersions : List (String × String) :=
  [("next", "^14.2.21"), ("react", "^18.3.1"), ("react-dom", "^18.3.1"),
   ("typescript", "^5.7.3"), ("@types/node", "^20.17.16"),
   ("@types/react", "^18.3.18"), ("@types/react-dom", "^18.3.5"),
   ("tailwindcss", "^3.4.17"), ("postcss", "^8.5.1"),
   ("autoprefixer", "^10.4.20"), ("eslint", "^8.56.0"),
   ("eslint-config-next", "^14.2.21"), ("@supabase/supabase-js", "^2.49.1"),
   ("lucide-react", "^0.469.0"), ("framer-motion", "^11.18.0"),
   ("recharts", "^2.15.0"), ("date-fns", "^4.1.0"), ("clsx", "^2.1.0"),
   ("tailwind-merge", "^2.2.0"), ("class-variance-authority", "^0.7.0"),
   ("@radix-ui/react-dialog", "^1.0.5"),
   ("@radix-ui/react-dropdown-menu", "^2.0.6"),
   ("@radix-ui/react-slot", "^1.0.2"), ("@radix-ui/react-toast", "^1.1.5"),
   ("@radix-ui/react-tabs", "^1.0.4"), ("zustand", "^4.5.0"),
   ("react-hot-toast", "^2.4.1"), ("react-icons", "^5.0.1"),
   ("uuid", "^9.0.0"), ("zod", "^3.22.0"), ("sonner", "^1.4.0"),
   ("react-hook-form", "^7.50.0"), ("@heroicons/react", "^2.1.1"),
   ("chart.js", "^4.4.1"), ("react-chartjs-2", "^5.2.0"),
   ("cmdk", "^0.2.0"), ("react-dropzone", "^14.2.3"),
   ("react-markdown", "^9.0.1"), ("next-themes", "^0.2.1"),
   ("sharp", "^0.33.2"), ("axios", "^1.6.7")]

/-- `KNOWN_GOOD_VERSIONS[p]` if truthy, else `"latest"`. -/
def versionForTS (p : String) : String :=
  match assocStr knownGoodVersions p with
  | some v => if v = "" then "latest" else v
  | none => "latest"

/-- The TypeScript reconciler: scan, compute missing, assign versions,
write back only when something was missing.  Returns the manifest and
whether it was written. -/
def reconcile (files : List (List Char)) (m : Manifest) : Manifest × Bool :=
  let imported := tsImported files
  if imported.isEmpty then (m, false)
  else
    let missing := imported.filter (fun p => !depTruthy m p)
    if missing.isEmpty then (m, false)
    else
      ({ m with dependencies :=
          missing.foldl (fun d p => setDep d p (versionForTS p)) m.dependencies }, true)

/-- The Python pattern `from\s+['"]([^./][^'"]+)['"]` anchored here:
capture and whole-match length. -/
def pyMatchFromAt (l : List Char) : Option (List Char × Nat) :=
  match l with
  | 'f' :: 'r' :: 'o' :: 'm' :: r =>
      let (n, r1) := wsSplit r
      if n = 0 then none
      else match r1 with
        | q :: c0 :: r3 =>
            if isQuote q && !(c0 = '.' || c0 = '/') then
              let more := r3.takeWhile (fun c => !isQuote c)
              if more.isEmpty then none
              else match r3.drop more.length with
                | q2 :: _ =>
                    if isQuote q2 then some (c0 :: more, 4 + n + 2 + more.length + 1)
                    else none
                | [] => none
            else none
        | _ => none
  | _ => none

/-- `re.finditer`: all non-overlapping matches, resuming after each. -/
def pyScanAll : Nat → List Char → List (List Char)
  | 0, _ => []
  | fuel + 1, l =>
      match pyMatchFromAt l with
      | some (cap, len) => cap :: pyScanAll fuel (l.drop len)
      | none =>
          match l with
          | [] => []
          | _ :: cs => pyScanAll fuel cs

/-- `NODE_BUILTINS` of the Python fixer (a set; only membership is used). -/
def pyBuiltins : List String :=
  ["fs", "path", "os", "crypto", "stream", "util", "http", "https", "url",
   "events", "buffer", "child_process", "net", "tls", "dns", "zlib",
   "querystring", "assert", "readline", "string_decoder", "timers", "vm",
   "worker_threads", "cluster", "dgram", "perf_hooks", "next", "react",
   "react-dom"]

/-- The Python scanner on one file: base names that pass the exclusions
(`base` truthy, not an `@/` alias, not a builtin). -/
def pyFileBases (content : List Char) : List String :=
  (pyScanAll (content.length + 1) content).filterMap (fun raw =>
    let b := basePkgOf raw
    if !b.isEmpty && !isPre ['@', '/'] b && !pyBuiltins.contains (String.mk b) then
      some (String.mk b)
    else none)

/-- The Python scanner over the tree. -/
def pyImported (files : List (List Char)) : List String :=
  files.foldl (fun acc f => (pyFileBases f).foldl insertOnce acc) []

/-- `KNOWN_GOOD_VERSIONS` of the Python fixer. -/
def pyKnownGoodVersions : List (String × String) :=
  [("next", "^14.2.21"), ("react", "^18.3.1"), ("react-dom", "^18.3.1"),
   ("typescript", "^5.7.3"), ("@types/node", "^20.17.16"),
   ("@types/react", "^18.3.18"), ("@types/react-dom", "^18.3.5"),
   ("tailwindcss", "^3.4.17"), ("postcss", "^8.5.1"),
   ("autoprefixer", "^10.4.20"), ("eslint", "^8.56.0"),
   ("eslint-config-next", "^14.2.21"), ("@supabase/supabase-js", "^2.49.1"),
   ("lucide-react", "^0.469.0"), ("framer-motion", "^11.18.0"),
   ("recharts", "^2.15.0"), ("date-fns", "^4.1.0"), ("clsx", "^2.1.0"),
   ("tailwind-merge", "^2.2.0"), ("react-hot-toast", "^2.4.1"),
   ("sonner", "^1.7.0"), ("zustand", "^5.0.0"),
   ("@headlessui/react", "^2.2.0"), ("@heroicons/react", "^2.2.0"),
   ("react-icons", "^5.4.0"), ("chart.js", "^4.4.0"),
   ("react-chartjs-2", "^5.2.0"), ("papaparse", "^5.4.1"),
   ("js-yaml", "^4.1.0"), ("fast-xml-parser", "^4.3.4"),
   ("jspdf", "^2.5.1"), ("jspdf-autotable", "^3.8.2"),
   ("@dnd-kit/core", "^6.3.0"), ("@dnd-kit/sortable", "^10.0.0")]

/-- Stable insertion into a sorted list (for Python `sorted`). -/
def insSorted (x : String) : List String → List String
  | [] => [x]
  | y :: ys => if x ≤ y then x :: y :: ys else y :: insSorted x ys

/-- `sorted` on strings. -/
def sortStrs (l : List String) : List String := l.foldr insSorted []

/-- The Python reconciler `fix_project` (the dependency part): set
difference on keys, sorted additions, write only when something was
added. -/
def pyFix (files : List (List Char)) (m : Manifest) : Manifest × Bool :=
  let needed := pyImported files
  let missing := sortStrs (needed.filter (fun p => !hasKey m p))
  if missing.isEmpty then (m, false)
  else
    ({ m with dependencies :=
        missing.foldl (fun d p =>
          setDep d p ((assocStr pyKnownGoodVersions p).getD "latest")) m.dependencies },
      true)

/-- The verifier pattern `Module not found[^\x27]*\x27([^\x27]+)\x27`
anchored here: capture and whole-match length. -/
def p1MatchAt (l : List Char) : Option (List Char × Nat) :=
  if isPre ('M' :: 'o' :: 'd' :: 'u' :: 'l' :: 'e' :: ' ' :: 'n' :: 'o' :: 't' ::
      ' ' :: 'f' :: 'o' :: 'u' :: 'n' :: 'd' :: []) l then
    let r := l.drop 16
    let gap := r.takeWhile (· ≠ '\x27')
    match r.drop gap.length with
    | _ :: r2 =>
        let cap := r2.takeWhile (· ≠ '\x27')
        if cap.isEmpty then none
        else match r2.drop cap.length with
          | _ :: _ => some (cap, 16 + gap.length + 1 + cap.length + 1)
          | [] => none
    | [] => none
  else none

/-- The verifier pattern `Cannot find module \x27([^\x27]+)\x27` anchored
here. -/
def p2MatchAt (l : List Char) : Option (List Char × Nat) :=
  if isPre ('C' :: 'a' :: 'n' :: 'n' :: 'o' :: 't' :: ' ' :: 'f' :: 'i' :: 'n' ::
      'd' :: ' ' :: 'm' :: 'o' :: 'd' :: 'u' :: 'l' :: 'e' :: ' ' :: '\x27' :: []) l then
    let r2 := l.drop 20
    let cap := r2.takeWhile (· ≠ '\x27')
    if cap.isEmpty then none
    else match r2.drop cap.length with
      | _ :: _ => some (cap, 20 + cap.length + 1)
      | [] => none
  else none

/-- `matchAll`: every non-overlapping match, in order. -/
def scanAll (matchAt : List Char → Option (List Char × Nat)) :
    Nat → List Char → List (List Char)
  | 0, _ => []
  | fuel + 1, l =>
      match matchAt l with
      | some (cap, len) => cap :: scanAll matchAt fuel (l.drop len)
      | none =>
          match l with
          | [] => []
          | _ :: cs => scanAll matchAt fuel cs

/-- The verifier's missing-module extraction: both error shapes, base
package names, the `. / ~` skip test on the base, distinct in insertion
order. -/
def missingFromOutput (err : List Char) : List String :=
  (scanAll p1MatchAt (err.length + 1) err ++ scanAll p2MatchAt (err.length + 1) err).foldl
    (fun acc mod =>
      let b := basePkgOf mod
      if isPre ['.'] b || isPre ['/'] b || isPre ['~'] b then acc
      else insertOnce acc (String.mk b)) []

/-- Lookup distributes over append, right side first (last wins). -/
theorem assocStr_append :
    ∀ (a b : List (String × String)) (p : String),
      assocStr (a ++ b) p = match assocStr b p with
        | some v => some v
        | none => assocStr a p := by
  intro a b p
  induction a with
  | nil =>
      simp only [List.nil_append]
      cases assocStr b p <;> simp [assocStr]
  | cons hd t ih =>
      obtain ⟨k0, v0⟩ := hd
      simp only [List.cons_append, assocStr, List.append_eq]
      rw [ih]
      cases assocStr b p <;> rfl

/-- No entry with the key means no lookup result. -/
theorem assocStr_none_of_not_contains :
    ∀ (d : List (String × String)) (p : String),
      (d.map Prod.fst).contains p = false → assocStr d p = none := by
  intro d p
  induction d with
  | nil => intro _; rfl
  | cons hd t ih =>
      obtain ⟨k0, v0⟩ := hd
      intro hc
      simp only [List.map_cons, List.contains_cons, Bool.or_eq_false_iff] at hc
      rw [assocStr, ih hc.2]
      simp only []
      rw [if_neg (fun he => by rw [he] at hc; simp at hc)]

/-- A lookup result is an entry of the list. -/
theorem assocStr_mem :
    ∀ (d : List (String × String)) (p v : String),
      assocStr d p = some v → (p, v) ∈ d := by
  intro d
  induction d with
  | nil => intro p v h; simp [assocStr] at h
  | cons hd t ih =>
      obtain ⟨k0, v0⟩ := hd
      intro p v h
      rw [assocStr] at h
      cases htl : assocStr t p with
      | some w =>
          rw [htl] at h
          simp only [Option.some.injEq] at h
          exact List.mem_cons_of_mem _ (h ▸ ih p w htl)
      | none =>
          rw [htl] at h
          simp only [] at h
          split_ifs at h with hk
          · simp only [Option.some.injEq] at h
            rw [← hk, ← h]
            exact List.mem_cons_self _ _

/-- Entries with other keys survive the overwriting map untouched. -/
theorem assocStr_map_set_ne (q v : String) :
    ∀ (d : List (String × String)) (p : String), q ≠ p →
      assocStr (d.map (fun r => if r.1 = q then (q, v) else r)) p = assocStr d p := by
  intro d p hqp
  induction d with
  | nil => rfl
  | cons hd t ih =>
      obtain ⟨k0, v0⟩ := hd
      rw [List.map_cons]
      by_cases hk : k0 = q
      · rw [show (if ((k0, v0) : String × String).1 = q then (q, v) else (k0, v0))
            = (q, v) from by simp [hk]]
        rw [assocStr, assocStr, ih]
        cases assocStr t p with
        | some w => rfl
        | none =>
            simp only []
            rw [if_neg hqp, if_neg (show ¬k0 = p from hk ▸ hqp)]
      · rw [show (if ((k0, v0) : String × String).1 = q then (q, v) else (k0, v0))
            = (k0, v0) from by simp [hk]]
        rw [assocStr, assocStr, ih]

/-- The overwriting map does not change the key list. -/
theorem keys_map_set (q v : String) :
    ∀ t : List (String × String),
      (t.map (fun r => if r.1 = q then (q, v) else r)).map Prod.fst = t.map Prod.fst := by
  intro t
  induction t with
  | nil => rfl
  | cons x xs ih =>
      rw [List.map_cons, List.map_cons, List.map_cons, ih]
      by_cases hx : x.1 = q
      · rw [show (if x.1 = q then (q, v) else x) = (q, v) from by simp [hx]]
        simp [hx]
      · rw [show (if x.1 = q then (q, v) else x) = x from by simp [hx]]

/-- The overwriting map rewrites the looked-up value of its key. -/
theorem assocStr_map_set_self (q v : String) :
    ∀ (d : List (String × String)),
      (d.map Prod.fst).contains q = true →
      assocStr (d.map (fun r => if r.1 = q then (q, v) else r)) q = some v := by
  intro d
  induction d with
  | nil => intro h; simp at h
  | cons hd t ih =>
      obtain ⟨k0, v0⟩ := hd
      intro hc
      rw [List.map_cons]
      by_cases htc : (t.map Prod.fst).contains q = true
      · by_cases hk : k0 = q
        · rw [show (if ((k0, v0) : String × String).1 = q then (q, v) else (k0, v0))
              = (q, v) from by simp [hk]]
          rw [assocStr, ih htc]
        · rw [show (if ((k0, v0) : String × String).1 = q then (q, v) else (k0, v0))
              = (k0, v0) from by simp [hk]]
          rw [assocStr, ih htc]
      · have hk0 : k0 = q := by
          simp only [List.map_cons, List.contains_cons, Bool.or_eq_true] at hc
          rcases hc with hc | hc
          · exact (by simpa using hc : q = k0).symm
          · exact absurd hc htc
        rw [show (if ((k0, v0) : String × String).1 = q then (q, v) else (k0, v0))
            = (q, v) from by simp [hk0]]
        rw [assocStr]
        have htn : assocStr (t.map (fun r => if r.1 = q then (q, v) else r)) q = none := by
          apply assocStr_none_of_not_contains
          rw [keys_map_set]
          simpa using htc
        rw [htn]
        simp

/-- Assigning a key makes its lookup the assigned value. -/
theorem assocStr_setDep_self (d : List (String × String)) (p v : String) :
    assocStr (setDep d p v) p = some v := by
  rw [setDep]
  by_cases hc : (d.map Prod.fst).contains p = true
  · rw [if_pos hc]
    exact assocStr_map_set_self p v d hc
  · rw [if_neg hc, assocStr_append]
    simp [assocStr]

/-- Assigning one key leaves the others' lookups unchanged. -/
theorem assocStr_setDep_ne (d : List (String × String)) (q v p : String) (h : q ≠ p) :
    assocStr (setDep d q v) p = assocStr d p := by
  rw [setDep]
  by_cases hc : (d.map Prod.fst).contains q = true
  · rw [if_pos hc]
    exact assocStr_map_set_ne q v d p h
  · rw [if_neg hc, assocStr_append]
    simp [assocStr, if_neg h]

/-- The assignment fold leaves absent keys alone. -/
theorem assocStr_fold_not_mem (ver : String → String) :
    ∀ (ms : List String) (d : List (String × String)) (p : String), p ∉ ms →
      assocStr (ms.foldl (fun d q => setDep d q (ver q)) d) p = assocStr d p := by
  intro ms
  induction ms with
  | nil => intro d p _; rfl
  | cons q tl ih =>
      intro d p hp
      rw [List.foldl_cons, ih _ p (fun hx => hp (List.mem_cons_of_mem _ hx))]
      exact assocStr_setDep_ne d q (ver q) p (fun he => hp (he ▸ List.mem_cons_self _ _))

/-- The assignment fold sets every processed key to its version. -/
theorem assocStr_fold_mem (ver : String → String) :
    ∀ (ms : List String) (d : List (String × String)) (p : String), p ∈ ms →
      assocStr (ms.foldl (fun d q => setDep d q (ver q)) d) p = some (ver p) := by
  intro ms
  induction ms with
  | nil => intro d p hp; simp at hp
  | cons q tl ih =>
      intro d p hp
      rw [List.foldl_cons]
      by_cases htl : p ∈ tl
      · exact ih _ p htl
      · have hq : p = q := by
          rcases List.mem_cons.mp hp with h | h
          · exact h
          · exact absurd h htl
        rw [assocStr_fold_not_mem _ tl _ p htl, hq, assocStr_setDep_self]

/-- The version chosen for a missing package is never the empty string. -/
theorem versionForTS_ne_empty (p : String) : versionForTS p ≠ "" := by
  have hgen : ∀ o : Option String, (match o with
      | some v => if v = "" then "latest" else v
      | none => "latest") ≠ "" := by
    intro o
    cases o with
    | none => simp
    | some v =>
        simp only []
        by_cases hv : v = "" <;> simp [hv]
  exact hgen (assocStr knownGoodVersions p)

/-- The TypeScript reconciler is idempotent when no devDependency version
is the empty string. -/
theorem reconcile_idem (files : List (List Char)) (m : Manifest)
    (h : ∀ r ∈ m.devDependencies, r.2 ≠ "") :
    reconcile files (reconcile files m).1 = ((reconcile files m).1, false) := by
  by_cases hI : (tsImported files).isEmpty = true
  · simp [reconcile, hI]
  · by_cases hM : ((tsImported files).filter (fun p => !depTruthy m p)).isEmpty = true
    · simp [reconcile, hI, hM]
    · have hfirst : reconcile files m
          = (⟨((tsImported files).filter (fun p => !depTruthy m p)).foldl
                (fun d p => setDep d p (versionForTS p)) m.dependencies,
              m.devDependencies⟩, true) := by
        simp only [reconcile, if_neg hI, if_neg hM]
      have hmiss : (tsImported files).filter
          (fun p => !depTruthy ⟨((tsImported files).filter (fun p => !depTruthy m p)).foldl
                (fun d p => setDep d p (versionForTS p)) m.dependencies,
              m.devDependencies⟩ p) = [] := by
        rw [List.filter_eq_nil_iff]
        intro p hp
        simp only [Bool.not_eq_true', Bool.not_eq_false]
        by_cases hdt : depTruthy m p = true
        · have hpne : p ∉ (tsImported files).filter (fun p => !depTruthy m p) := by
            simp [List.mem_filter, hdt]
          rw [depTruthy] at hdt ⊢
          simp only []
          rw [assocStr_fold_not_mem _ _ _ p hpne]
          exact hdt
        · have hpm : p ∈ (tsImported files).filter (fun p => !depTruthy m p) := by
            simp [List.mem_filter, hp, hdt]
          cases hdd : assocStr m.devDependencies p with
          | some v =>
              exfalso
              have hvv : v = "" := by
                rw [depTruthy, hdd] at hdt
                simpa using hdt
              exact h (p, v) (assocStr_mem _ _ _ hdd) (by simp [hvv])
          | none =>
              rw [depTruthy]
              simp only []
              rw [hdd, assocStr_fold_mem _ _ _ p hpm]
              simp [versionForTS_ne_empty p]
      rw [hfirst]
      simp only [reconcile, if_neg hI]
      rw [hmiss]
      simp

/-- `insSorted` inserts, up to membership. -/
theorem mem_insSorted (x a : String) :
    ∀ s : List String, x ∈ insSorted a s ↔ x = a ∨ x ∈ s := by
  intro s
  induction s with
  | nil => simp [insSorted]
  | cons y ys ih =>
      rw [insSorted]
      by_cases hxy : a ≤ y
      · rw [if_pos hxy]
        simp
      · rw [if_neg hxy]
        simp only [List.mem_cons, ih]
        tauto

/-- Sorting preserves membership. -/
theorem mem_sortStrs (x : String) : ∀ l : List String, x ∈ sortStrs l ↔ x ∈ l := by
  intro l
  induction l with
  | nil => simp [sortStrs]
  | cons a t ih =>
      rw [show sortStrs (a :: t) = insSorted a (sortStrs t) from rfl]
      rw [mem_insSorted, ih]
      simp

/-- Assigning a key records it among the keys. -/
theorem keys_setDep_self (d : List (String × String)) (p v : String) :
    ((setDep d p v).map Prod.fst).contains p = true := by
  rw [setDep]
  by_cases hc : (d.map Prod.fst).contains p = true
  · rw [if_pos hc, keys_map_set]
    exact hc
  · rw [if_neg hc, List.map_append]
    rw [List.elem_iff]
    simp

/-- Assignment never removes keys. -/
theorem keys_setDep_mono (d : List (String × String)) (q v k : String)
    (h : (d.map Prod.fst).contains k = true) :
    ((setDep d q v).map Prod.fst).contains k = true := by
  rw [setDep]
  by_cases hc : (d.map Prod.fst).contains q = true
  · rw [if_pos hc, keys_map_set]
    exact h
  · rw [if_neg hc, List.map_append]
    rw [List.elem_iff] at h ⊢
    simp only [List.mem_append]
    exact Or.inl h

/-- The assignment fold keeps existing keys. -/
theorem keys_fold_mono (ver : String → String) :
    ∀ (ms : List String) (d : List (String × String)) (k : String),
      (d.map Prod.fst).contains k = true →
      ((ms.foldl (fun d q => setDep d q (ver q)) d).map Prod.fst).contains k = true := by
  intro ms
  induction ms with
  | nil => intro d k h; exact h
  | cons q tl ih =>
      intro d k h
      rw [List.foldl_cons]
      exact ih _ k (keys_setDep_mono d q (ver q) k h)

/-- The assignment fold records every processed key. -/
theorem keys_fold_mem (ver : String → String) :
    ∀ (ms : List String) (d : List (String × String)) (p : String), p ∈ ms →
      ((ms.foldl (fun d q => setDep d q (ver q)) d).map Prod.fst).contains p = true := by
  intro ms
  induction ms with
  | nil => intro d p hp; simp at hp
  | cons q tl ih =>
      intro d p hp
      rw [List.foldl_cons]
      by_cases htl : p ∈ tl
      · exact ih _ p htl
      · have hq : p = q := by
          rcases List.mem_cons.mp hp with h | h
          · exact h
          · exact absurd h htl
        exact keys_fold_mono _ tl _ p (hq ▸ keys_setDep_self d q (ver q))

/-- The Python reconciler is idempotent, unconditionally. -/
theorem pyFix_idem (files : List (List Char)) (m : Manifest) :
    pyFix files (pyFix files m).1 = ((pyFix files m).1, false) := by
  by_cases hM : (sortStrs ((pyImported files).filter (fun p => !hasKey m p))).isEmpty = true
  · simp [pyFix, hM]
  · have hfirst : pyFix files m
        = (⟨(sortStrs ((pyImported files).filter (fun p => !hasKey m p))).foldl
              (fun d p => setDep d p ((assocStr pyKnownGoodVersions p).getD "latest"))
              m.dependencies,
            m.devDependencies⟩, true) := by
      simp only [pyFix, if_neg hM]
    have hmiss : (pyImported files).filter
        (fun p => !hasKey ⟨(sortStrs ((pyImported files).filter (fun p => !hasKey m p))).foldl
              (fun d p => setDep d p ((assocStr pyKnownGoodVersions p).getD "latest"))
              m.dependencies,
            m.devDependencies⟩ p) = [] := by
      rw [List.filter_eq_nil_iff]
      intro p hp
      simp only [Bool.not_eq_true', Bool.not_eq_false]
      by_cases hk : hasKey m p = true
      · rw [hasKey] at hk ⊢
        simp only []
        rw [Bool.or_eq_true] at hk
        rcases hk with hdep | hdev
        · rw [keys_fold_mono _ _ _ p hdep]
          simp
        · rw [hdev]
          simp
      · have hpm : p ∈ sortStrs ((pyImported files).filter (fun p => !hasKey m p)) := by
          rw [mem_sortStrs]
          simp [List.mem_filter, hp, hk]
        rw [hasKey]
        simp only []
        rw [keys_fold_mem _ _ _ p hpm]
        simp
    rw [hfirst]
    simp only [pyFix]
    rw [hmiss]
    simp [sortStrs]

/-- C5, amended.  Both reconcilers are idempotent: a second run on the same
tree with the manifest produced by the first run discovers nothing missing
and does not write.  For the TypeScript reconciler this needs every
devDependencies version to be a non-empty string (its missing test is the
truthiness of the spread `\x7b...deps, ...devDeps\x7d`, so an empty
devDependencies version keeps its package "missing" forever); the Python
reconciler compares keys and is idempotent unconditionally. -/
theorem c5_reconcile_idempotent (files : List (List Char)) (m : Manifest)
    (h : ∀ r ∈ m.devDependencies, r.2 ≠ "") :
    reconcile files (reconcile files m).1 = ((reconcile files m).1, false) ∧
    pyFix files (pyFix files m).1 = ((pyFix files m).1, false) :=
  ⟨reconcile_idem files m h, pyFix_idem files m⟩

/-- Witness for C5 at a concrete tree and manifest. -/
theorem c5_reconcile_idempotent_witness :
    reconcile ["import x from \"lodash\"".toList]
        (reconcile ["import x from \"lodash\"".toList]
          ⟨[("react", "^18.3.1")], [("zod", "^3.22.0")]⟩).1
      = ((reconcile ["import x from \"lodash\"".toList]
          ⟨[("react", "^18.3.1")], [("zod", "^3.22.0")]⟩).1, false) ∧
    pyFix ["import x from \"lodash\"".toList]
        (pyFix ["import x from \"lodash\"".toList]
          ⟨[("react", "^18.3.1")], [("zod", "^3.22.0")]⟩).1
      = ((pyFix ["import x from \"lodash\"".toList]
          ⟨[("react", "^18.3.1")], [("zod", "^3.22.0")]⟩).1, false) :=
  c5_reconcile_idempotent ["import x from \"lodash\"".toList]
    ⟨[("react", "^18.3.1")], [("zod", "^3.22.0")]⟩ (by decide)

/-- Counterexample to C5 as stated: with an empty devDependencies version
the imported package tests missing on every run, so the second run writes
the manifest again (the write flag is `true` both times). -/
theorem c5_counterexample :
    (reconcile ["import \x7b z \x7d from \"zod\"".toList] ⟨[], [("zod", "")]⟩).2 = true ∧
    (reconcile ["import \x7b z \x7d from \"zod\"".toList]
        (reconcile ["import \x7b z \x7d from \"zod\"".toList] ⟨[], [("zod", "")]⟩).1).2
      = true :=
  ⟨rfl, rfl⟩

/-- C4.  The TypeScript import scan fails to exclude path-alias
specifiers: `import Button from "@/components/Button"` contributes the
base name `@/components`, which the reconciler then adds to
`dependencies` with version `latest`; the sibling Python scanner excludes
the same specifier (`base.startswith("@/")`), showing the intended
behavior. -/
theorem c4_alias_package_added :
    tsImported ["import Button from \"@/components/Button\"".toList] = ["@/components"] ∧
    reconcile ["import Button from \"@/components/Button\"".toList] ⟨[], []⟩
      = (⟨[("@/components", "latest")], []⟩, true) ∧
    pyImported ["import Button from \"@/components/Button\"".toList] = [] :=
  ⟨rfl, rfl, rfl⟩

/-- C7.  The verifier reduces an absolute-path specifier to the base name
`""` (the text before the first slash), which no skip prefix matches, so
the empty string is reported as a missing package; plain package
specifiers reduce correctly and relative ones are skipped. -/
theorem c7_slash_specifier :
    missingFromOutput "xx Cannot find module \x27/tmp/build/page.tsx\x27 yy".toList = [""] ∧
    missingFromOutput "xx Cannot find module \x27lodash/fp\x27 yy".toList = ["lodash"] ∧
    missingFromOutput "xx Cannot find module \x27./local\x27 yy".toList = [] :=
  ⟨rfl, rfl, rfl⟩

/-! ## The export fixer (C6)

`fixImportExportMismatches` builds an export map (default-export test and
named-export captures per file, keyed by project-relative path), scans each
file for default-style imports of local specifiers, resolves the specifier
(`@/` verbatim to `src/`, otherwise `path.relative(projectPath,
path.resolve(dirname(file), spec))`), tries the five extension candidates,
and rewrites to the named form when the target has no default export and
does export the imported identifier, preserving the quote style. -/

/-- The `\w` class. -/
def wordChar (c : Char) : Bool :=
  ('a' ≤ c && c ≤ 'z') || ('A' ≤ c && c ≤ 'Z') || ('0' ≤ c && c ≤ '9') || c = '_'

/-- The pattern `export\s+default\s+` anchored here. -/
def matchExpDefAt (l : List Char) : Bool :=
  match l with
  | 'e' :: 'x' :: 'p' :: 'o' :: 'r' :: 't' :: r =>
      let (n1, r1) := wsSplit r
      if n1 = 0 then false
      else match r1 with
        | 'd' :: 'e' :: 'f' :: 'a' :: 'u' :: 'l' :: 't' :: r2 =>
            let (n2, _) := wsSplit r2
            decide (n2 ≠ 0)
        | _ => false
  | _ => false

/-- `re.test`: does the pattern match anywhere? -/
def testScan (test : List Char → Bool) : Nat → List Char → Bool
  | 0, _ => false
  | fuel + 1, l =>
      if test l then true
      else match l with
        | [] => false
        | _ :: cs => testScan test fuel cs

/-- The pattern `export\s+(?:function|const|class)\s+(\w+)` anchored here:
capture and whole-match length. -/
def matchNamedExpAt (l : List Char) : Option (List Char × Nat) :=
  match l with
  | 'e' :: 'x' :: 'p' :: 'o' :: 'r' :: 't' :: r =>
      let (n1, r1) := wsSplit r
      if n1 = 0 then none
      else
        let kw : Option (Nat × List Char) :=
          match r1 with
          | 'f' :: 'u' :: 'n' :: 'c' :: 't' :: 'i' :: 'o' :: 'n' :: r2 => some (8, r2)
          | 'c' :: 'o' :: 'n' :: 's' :: 't' :: r2 => some (5, r2)
          | 'c' :: 'l' :: 'a' :: 's' :: 's' :: r2 => some (5, r2)
          | _ => none
        match kw with
        | some (klen, r2) =>
            let (n2, r3) := wsSplit r2
            if n2 = 0 then none
            else
              let w := r3.takeWhile wordChar
              if w.isEmpty then none
              else some (w, 6 + n1 + klen + n2 + w.length)
        | none => none
  | _ => none

/-- The named-export captures of a file, in order. -/
def namedExportsOf (content : List Char) : List String :=
  (scanAll matchNamedExpAt (content.length + 1) content).map String.mk

/-- The per-file record of the export map. -/
structure ExpInfo where
  hasDefault : Bool
  namedExports : List String
deriving Repr, DecidableEq, Inhabited

/-- The export scan of one file. -/
def exportInfoOf (content : List Char) : ExpInfo :=
  ⟨testScan matchExpDefAt (content.length + 1) content, namedExportsOf content⟩

/-- The export map over the walked tree (project-relative path, content). -/
def exportMapOf (tree : List (String × List Char)) : List (String × ExpInfo) :=
  tree.map (fun f => (f.1, exportInfoOf f.2))

/-- `Map.get` with later `set`s of the same key winning. -/
def expGet : List (String × ExpInfo) → String → Option ExpInfo
  | [], _ => none
  | (k0, v0) :: rest, k =>
      match expGet rest k with
      | some v => some v
      | none => if k0 = k then some v0 else none

/-- The same lookup on the raw tree. -/
def treeGet : List (String × List Char) → String → Option (List Char)
  | [], _ => none
  | (k0, v0) :: rest, k =>
      match treeGet rest k with
      | some v => some v
      | none => if k0 = k then some v0 else none

/-- A default-style import match: the imported identifier, the specifier,
and whether the matched text contains a single quote. -/
structure ImportMatch where
  name : String
  spec : String
  sq : Bool
deriving Repr, DecidableEq, Inhabited

/-- The specifier alternation `@\/[^\x27"]+|\.\/?[^\x27"]+|\.\.\/[^\x27"]+`:
an `@/` alias or a dot-relative path (the second alternative subsumes the
third, matching `.` followed by one or more non-quote characters). -/
def matchSpec (r : List Char) : Option (List Char) :=
  match r with
  | '@' :: '/' :: rest =>
      let more := rest.takeWhile (fun c => !isQuote c)
      if more.isEmpty then none else some ('@' :: '/' :: more)
  | '.' :: rest =>
      let more := rest.takeWhile (fun c => !isQuote c)
      if more.isEmpty then none else some ('.' :: more)
  | _ => none

/-- The pattern
`import\s+(\w+)\s+from\s+[\x27"](spec)[\x27"]` anchored here. -/
def matchImportAt (l : List Char) : Option (ImportMatch × Nat) :=
  match l with
  | 'i' :: 'm' :: 'p' :: 'o' :: 'r' :: 't' :: r =>
      let (n1, r1) := wsSplit r
      if n1 = 0 then none
      else
        let nm := r1.takeWhile wordChar
        if nm.isEmpty then none
        else
          let r2 := r1.drop nm.length
          let (n2, r3) := wsSplit r2
          if n2 = 0 then none
          else match r3 with
            | 'f' :: 'r' :: 'o' :: 'm' :: r4 =>
                let (n3, r5) := wsSplit r4
                if n3 = 0 then none
                else match r5 with
                  | q :: r6 =>
                      if isQuote q then
                        match matchSpec r6 with
                        | some cap =>
                            match r6.drop cap.length with
                            | q2 :: _ =>
                                if isQuote q2 then
                                  some (⟨String.mk nm, String.mk cap,
                                    q = '\x27' || q2 = '\x27'⟩,
                                    6 + n1 + nm.length + n2 + 4 + n3 + 1 + cap.length + 1)
                                else none
                            | [] => none
                        | none => none
                      else none
                  | [] => none
            | _ => none
  | _ => none

/-- All import matches of a file, in order. -/
def scanAllIM : Nat → List Char → List ImportMatch
  | 0, _ => []
  | fuel + 1, l =>
      match matchImportAt l with
      | some (im, len) => im :: scanAllIM fuel (l.drop len)
      | none =>
          match l with
          | [] => []
          | _ :: cs => scanAllIM fuel cs

/-- Split on a separator character. -/
def splitSep (sep : Char) : Nat → List Char → List (List Char)
  | 0, l => [l]
  | fuel + 1, l =>
      let seg := l.takeWhile (· ≠ sep)
      match l.drop seg.length with
      | _ :: rest => seg :: splitSep sep fuel rest
      | [] => [seg]

/-- The `/`-segments of a path. -/
def segsOf (l : List Char) : List (List Char) :=
  splitSep '/' (l.length + 1) l

/-- Join segments with `/`. -/
def joinSegs : List (List Char) → List Char
  | [] => []
  | [s] => s
  | s :: rest => s ++ '/' :: joinSegs rest

/-- `path.resolve` segment normalization: `.` and empty segments vanish,
`..` pops (counting pops past the project root), others push. -/
def resolveSegs : Nat → List (List Char) → List (List Char) → Nat × List (List Char)
  | up, acc, [] => (up, acc)
  | up, acc, s :: rest =>
      if s = ['.'] || s.isEmpty then resolveSegs up acc rest
      else if s = ['.', '.'] then
        match acc with
        | [] => resolveSegs (up + 1) [] rest
        | _ :: _ => resolveSegs up acc.dropLast rest
      else resolveSegs up (acc ++ [s]) rest

/-- The resolved project-relative path of an import specifier: `@/` maps
verbatim to `src/`, a relative specifier goes through
`path.relative(projectPath, path.resolve(path.dirname(file), spec))`
(pops past the root surface as `..` segments, which match no map key). -/
def resolveImport (filePath : String) (spec : List Char) : String :=
  if isPre ['@', '/'] spec then String.mk ('s' :: 'r' :: 'c' :: '/' :: spec.drop 2)
  else
    let r := resolveSegs 0 ((segsOf filePath.toList).dropLast) (segsOf spec)
    String.mk (joinSegs (List.replicate r.1 ['.', '.'] ++ r.2))

/-- The five lookup candidates. -/
def candList (p : String) : List String :=
  [p, p ++ ".tsx", p ++ ".ts", p ++ ".jsx", p ++ ".js"]

/-- The first candidate present in the export map. -/
def expFirst (em : List (String × ExpInfo)) (cands : List String) : Option ExpInfo :=
  cands.findSome? (expGet em)

/-- The first candidate present in the tree. -/
def treeHit (tree : List (String × List Char)) (cands : List String) : Option (List Char) :=
  cands.findSome? (treeGet tree)

/-- The preserved quote style. -/
def quoteStr (sq : Bool) : String := if sq then "\x27" else "\""

/-- The rewrite decision and replacement text for one import match. -/
def rewriteOf (em : List (String × ExpInfo)) (filePath : String)
    (im : ImportMatch) : Option String :=
  match expFirst em (candList (resolveImport filePath im.spec.toList)) with
  | some info =>
      if !info.hasDefault && info.namedExports.contains im.name then
        some ("import \x7b " ++ im.name ++ " \x7d from "
          ++ quoteStr im.sq ++ im.spec ++ quoteStr im.sq)
      else none
  | none => none

/-- The replacement texts the fixer emits for one file. -/
def replacementsOf (em : List (String × ExpInfo)) (filePath : String)
    (content : List Char) : List String :=
  (scanAllIM (content.length + 1) content).filterMap (rewriteOf em filePath)

/-- The export map's lookup is the tree's lookup followed by the export
scan. -/
theorem expGet_exportMapOf (c : String) :
    ∀ tree : List (String × List Char),
      expGet (exportMapOf tree) c = (treeGet tree c).map exportInfoOf := by
  intro tree
  induction tree with
  | nil => rfl
  | cons f t ih =>
      obtain ⟨p, cont⟩ := f
      rw [show exportMapOf ((p, cont) :: t) = (p, exportInfoOf cont) :: exportMapOf t from rfl]
      rw [expGet, treeGet, ih]
      cases treeGet t c with
      | some w => rfl
      | none =>
          by_cases hp : p = c
          · simp [hp]
          · simp [hp]

/-- The candidate walk on the export map is the candidate walk on the
tree followed by the export scan. -/
theorem expFirst_treeHit (tree : List (String × List Char)) :
    ∀ cands : List String,
      expFirst (exportMapOf tree) cands = (treeHit tree cands).map exportInfoOf := by
  intro cands
  induction cands with
  | nil => rfl
  | cons c cs ih =>
      rw [expFirst, treeHit, List.findSome?_cons, List.findSome?_cons]
      rw [expGet_exportMapOf c tree]
      cases treeGet tree c with
      | some w => rfl
      | none => exact ih

/-- A key outside the tree finds nothing. -/
theorem treeGet_none (c : String) :
    ∀ tree : List (String × List Char),
      (∀ p ∈ tree.map Prod.fst, p ≠ c) → treeGet tree c = none := by
  intro tree
  induction tree with
  | nil => intro _; rfl
  | cons f t ih =>
      obtain ⟨p, cont⟩ := f
      intro h
      rw [treeGet, ih (fun x hx => h x (by simp [hx]))]
      simp only []
      rw [if_neg (h p (by simp))]

/-- C6.  For any project tree, importing file and scanned default-style
local import: any rewrite the fixer emits is the named form
with the original quote style; a rewrite is emitted exactly when one of
the five resolution candidates is a file of the tree (the first such)
whose content does not match the default-export pattern and whose
named-export captures contain the imported identifier; and a specifier
none of whose candidates is a file of the tree - a third-party package -
is never rewritten. -/
theorem c6_export_fixer (tree : List (String × List Char)) (filePath : String)
    (content : List Char) (im : ImportMatch)
    (him : im ∈ scanAllIM (content.length + 1) content) :
    (∀ t, rewriteOf (exportMapOf tree) filePath im = some t →
      t = "import \x7b " ++ im.name ++ " \x7d from "
            ++ quoteStr im.sq ++ im.spec ++ quoteStr im.sq) ∧
    ((∃ t, rewriteOf (exportMapOf tree) filePath im = some t) ↔
      (∃ cont, treeHit tree (candList (resolveImport filePath im.spec.toList)) = some cont ∧
        testScan matchExpDefAt (cont.length + 1) cont = false ∧
        (namedExportsOf cont).contains im.name = true)) ∧
    ((∀ cand ∈ candList (resolveImport filePath im.spec.toList),
        ∀ p ∈ tree.map Prod.fst, p ≠ cand) →
      rewriteOf (exportMapOf tree) filePath im = none) := by
  have hre : rewriteOf (exportMapOf tree) filePath im
      = match (treeHit tree (candList (resolveImport filePath im.spec.toList))).map
          exportInfoOf with
        | some info =>
            if !info.hasDefault && info.namedExports.contains im.name then
              some ("import \x7b " ++ im.name ++ " \x7d from "
                ++ quoteStr im.sq ++ im.spec ++ quoteStr im.sq)
            else none
        | none => none := by
    rw [rewriteOf, expFirst_treeHit]
  cases hth : treeHit tree (candList (resolveImport filePath im.spec.toList)) with
  | none =>
      rw [hth] at hre
      simp only [Option.map_none'] at hre
      refine ⟨?_, ?_, ?_⟩
      · intro t ht
        rw [hre] at ht
        exact absurd ht (by simp)
      · constructor
        · rintro ⟨t, ht⟩
          rw [hre] at ht
          exact absurd ht (by simp)
        · rintro ⟨cont, hc, _, _⟩
          exact absurd hc (by simp)
      · intro _
        exact hre
  | some cont =>
      rw [hth] at hre
      simp only [Option.map_some'] at hre
      by_cases hcond : (!(exportInfoOf cont).hasDefault
          && (exportInfoOf cont).namedExports.contains im.name) = true
      · rw [if_pos hcond] at hre
        rw [Bool.and_eq_true] at hcond
        obtain ⟨ha, hb⟩ := hcond
        have hdef : (exportInfoOf cont).hasDefault = false := by
          revert ha
          cases (exportInfoOf cont).hasDefault <;> simp
        refine ⟨?_, ?_, ?_⟩
        · intro t ht
          rw [hre] at ht
          exact (Option.some.inj ht).symm
        · constructor
          · intro _
            exact ⟨cont, rfl, hdef, hb⟩
          · intro _
            exact ⟨_, hre⟩
        · intro hno
          exfalso
          rw [treeHit] at hth
          obtain ⟨cand, hcm, hget⟩ := List.exists_of_findSome?_eq_some hth
          rw [treeGet_none cand tree (fun p hp => hno cand hcm p hp)] at hget
          exact absurd hget (by simp)
      · rw [if_neg hcond] at hre
        refine ⟨?_, ?_, ?_⟩
        · intro t ht
          rw [hre] at ht
          exact absurd ht (by simp)
        · constructor
          · rintro ⟨t, ht⟩
            rw [hre] at ht
            exact absurd ht (by simp)
          · rintro ⟨cont2, hc2, hdef2, hnm2⟩
            exfalso
            have hcc : cont2 = cont := Option.some.inj hc2.symm
            subst hcc
            apply hcond
            rw [Bool.and_eq_true]
            refine ⟨?_, hnm2⟩
            rw [show (exportInfoOf cont2).hasDefault
                = testScan matchExpDefAt (cont2.length + 1) cont2 from rfl, hdef2]
            rfl
        · intro hno
          exfalso
          rw [treeHit] at hth
          obtain ⟨cand, hcm, hget⟩ := List.exists_of_findSome?_eq_some hth
          rw [treeGet_none cand tree (fun p hp => hno cand hcm p hp)] at hget
          exact absurd hget (by simp)

/-- Witness for C6: a concrete tree and import; the alias resolves to the
`.tsx` candidate, the target has only the named export, and the rewrite
preserves the single quotes. -/
theorem c6_export_fixer_witness :
    rewriteOf (exportMapOf [("src/components/Button.tsx",
        "export function Button() \x7b return null \x7d".toList)])
      "src/app/page.tsx" ⟨"Button", "@/components/Button", true⟩
      = some "import \x7b Button \x7d from \x27@/components/Button\x27" := by
  have h := c6_export_fixer
    [("src/components/Button.tsx",
      "export function Button() \x7b return null \x7d".toList)]
    "src/app/page.tsx"
    ("import Button from \x27@/components/Button\x27".toList)
    ⟨"Button", "@/components/Button", true⟩ (by decide)
  obtain ⟨t, ht⟩ := h.2.1.mpr
    ⟨"export function Button() \x7b return null \x7d".toList,
      by decide, by decide, by decide⟩
  rw [ht, h.1 t ht]
  rfl

end Openclaw
